import Mathlib

/-
  Verification of the CodeMate indexing and retrieval engine.

  This file gives a shallow embedding, in Lean 4, of the core data model and
  algorithms of the engine: the content-hash hex codec, cosine similarity,
  the query-string parser, the hybrid query engine (metadata filter, vector
  scan, lexical results, reciprocal-rank fusion, final sort and truncation),
  the SQLite-backed store writes, the crate-level module rollup rules, the
  module-cycle DFS, and the dependency-tree renderer.

  Modelling conventions:
  - Rust machine integers are modelled as Nat; 32-bit floats are modelled by
    exact rationals (ℚ), with `sqrt` taken as an explicit function parameter
    (the claims settled here are structural and do not depend on rounding).
  - SQL tables are lists of row structures; SQL three-valued logic over
    nullable columns is modelled explicitly (a NULL comparison is not TRUE).
  - SQLite LIKE is modelled with its `%`/`_` wildcards and its default
    ASCII case folding; SQLite UNIQUE treats NULL as distinct from NULL.
  - External engines reached through well-defined interfaces (the FTS5
    ranker, the chrono RFC-3339 parser, the hash-map iteration order) enter
    as explicit function parameters of the embedded operations.

  The file is organised as: all definitions first, then all theorems.
-/

namespace CodeMate

/-! ## Content hash and hex codec (content_hash.rs) -/

/-- Lowercase hex digit for a value below 16, as produced by hex::encode. -/
def hexDigitChar (n : Nat) : Char :=
  if n < 10 then Char.ofNat ('0'.toNat + n) else Char.ofNat ('a'.toNat + (n - 10))

/-- Two lowercase hex digits of one byte. -/
def byteToHex (b : Nat) : List Char :=
  [hexDigitChar (b / 16), hexDigitChar (b % 16)]

/-- Value of one hex digit, accepting both cases, as hex::decode does. -/
def hexVal (c : Char) : Option Nat :=
  if '0' ≤ c ∧ c ≤ '9' then some (c.toNat - '0'.toNat)
  else if 'a' ≤ c ∧ c ≤ 'f' then some (c.toNat - 'a'.toNat + 10)
  else if 'A' ≤ c ∧ c ≤ 'F' then some (c.toNat - 'A'.toNat + 10)
  else none

/-- Decode a hex character sequence to bytes; fails on odd length or on a
character that is not a hex digit, as hex::decode does. -/
def hexDecodeChars : List Char → Option (List Nat)
  | [] => some []
  | [_] => none
  | c1 :: c2 :: rest =>
    match hexVal c1, hexVal c2, hexDecodeChars rest with
    | some v1, some v2, some bs => some ((v1 * 16 + v2) :: bs)
    | _, _, _ => none

/-- A 32-byte content hash (ContentHash in content_hash.rs); each byte is
below 256. -/
abbrev ContentHash := { bs : List Nat // bs.length = 32 ∧ ∀ b ∈ bs, b < 256 }

/-- ContentHash::to_hex — 64-character lowercase hex rendering. -/
def ContentHash.to_hex (h : ContentHash) : List Char :=
  h.val.flatMap byteToHex

/-- ContentHash::from_hex — hex-decode, then require exactly 32 bytes. -/
def ContentHash.from_hex (s : List Char) : Option ContentHash :=
  match hexDecodeChars s with
  | none => none
  | some bs =>
    if h : bs.length = 32 ∧ ∀ b ∈ bs, b < 256 then some ⟨bs, h⟩ else none

/-! ## Embeddings and cosine similarity (storage/traits.rs) -/

/-- An embedding vector (struct Embedding in storage/traits.rs); f32 entries
are modelled as rationals. -/
structure Embedding where
  vector : List ℚ
  model_id : String
  dimensions : Nat

/-- Dot product over the zip of the two vectors, as the iterator chain in
Embedding::cosine_similarity computes it. -/
def dotZip (a b : List ℚ) : ℚ :=
  ((a.zip b).map fun p => p.1 * p.2).sum

/-- Sum of squares of a vector, the radicand of the norm computation. -/
def sumSquares (v : List ℚ) : ℚ :=
  (v.map fun x => x * x).sum

/-- Embedding::cosine_similarity. The f32 square root enters as the explicit
parameter sqrtFn; the branch structure follows the source: 0 on a dimensions
mismatch, 0 if either computed norm is zero, otherwise dot over the product
of norms. -/
def cosineSimilarity (sqrtFn : ℚ → ℚ) (a b : Embedding) : ℚ :=
  if a.dimensions ≠ b.dimensions then 0
  else
    let dot := dotZip a.vector b.vector
    let normA := sqrtFn (sumSquares a.vector)
    let normB := sqrtFn (sumSquares b.vector)
    if normA = 0 ∨ normB = 0 then 0 else dot / (normA * normB)

/-! ## Language enum (chunk.rs) -/

/-- Programming language of a chunk (enum Language in chunk.rs). -/
inductive Language where
  | rust | python | typescript | javascript | go | java | hcl | unknown
  deriving DecidableEq, Repr

/-- Lowercase a string character-wise (ASCII letters), modelling
str::to_lowercase on the ASCII identifiers this engine compares. -/
def strToLower (s : String) : String :=
  ⟨s.data.map Char.toLower⟩

/-- Language::from_str — case-folded extension or name detection. -/
def Language.fromStr (s : String) : Language :=
  match strToLower s with
  | "rs" | "rust" => .rust
  | "py" | "pyi" | "python" => .python
  | "ts" | "tsx" | "typescript" => .typescript
  | "js" | "jsx" | "mjs" | "javascript" => .javascript
  | "go" | "golang" => .go
  | "java" => .java
  | "tf" | "tfvars" | "hcl" | "terraform" => .hcl
  | _ => .unknown

/-- Language::as_str. -/
def Language.asStr : Language → String
  | .rust => "rust"
  | .python => "python"
  | .typescript => "typescript"
  | .javascript => "javascript"
  | .go => "go"
  | .java => "java"
  | .hcl => "hcl"
  | .unknown => "unknown"

/-! ## Query DSL (query.rs) -/

/-- A chrono `DateTime<Utc>` value, modelled by its observable RFC-3339
rendering (the only use this engine makes of it). -/
structure DateTimeUtc where
  rfc3339 : String
  deriving DecidableEq, Repr

/-- A parsed search query (struct SearchQuery in query.rs). -/
structure SearchQuery where
  raw_query : String
  author : Option String
  lang : Option Language
  after : Option DateTimeUtc
  before : Option DateTimeUtc
  file_pattern : Option String
  limit : Nat
  deriving Repr

/-- Rust char::is_whitespace — the Unicode White_Space code points. -/
def rustIsWhitespace (c : Char) : Bool :=
  let n := c.toNat
  decide ((0x09 ≤ n ∧ n ≤ 0x0D) ∨ n = 0x20 ∨ n = 0x85 ∨ n = 0xA0 ∨ n = 0x1680 ∨
    (0x2000 ≤ n ∧ n ≤ 0x200A) ∨ n = 0x2028 ∨ n = 0x2029 ∨ n = 0x202F ∨
    n = 0x205F ∨ n = 0x3000)

/-- Split a character list into whitespace-separated nonempty tokens,
modelling str::split_whitespace. -/
def splitWsAux : List Char → List Char → List String
  | [], [] => []
  | [], acc => [⟨acc.reverse⟩]
  | c :: rest, acc =>
    if rustIsWhitespace c then
      if acc = [] then splitWsAux rest []
      else (⟨acc.reverse⟩ : String) :: splitWsAux rest []
    else splitWsAux rest (c :: acc)

/-- Tokens of an input string, in order. -/
def splitWhitespace (s : String) : List String :=
  splitWsAux s.data []

/-- Split at the first colon, modelling str::split_once(':'). -/
def splitColonAux : List Char → Option (List Char × List Char)
  | [] => none
  | c :: rest =>
    if c = ':' then some ([], rest)
    else
      match splitColonAux rest with
      | some (a, b) => some (c :: a, b)
      | none => none

/-- Key/value split of one token at the first colon. -/
def splitOnceColon (t : String) : Option (String × String) :=
  match splitColonAux t.data with
  | some (a, b) => some (⟨a⟩, ⟨b⟩)
  | none => none

/-- Numeric value of an all-digit character list, none when empty or when a
non-digit appears. -/
def digitsToNat : List Char → Option Nat
  | [] => none
  | cs =>
    cs.foldl
      (fun acc c =>
        match acc with
        | none => none
        | some n => if c.isDigit then some (n * 10 + (c.toNat - '0'.toNat)) else none)
      (some 0)

/-- Rust usize::from_str on a 64-bit platform: an optional leading plus sign,
then one or more ASCII digits, value at most 2^64 - 1. -/
def parseUsize (s : String) : Option Nat :=
  let cs :=
    match s.data with
    | '+' :: rest => rest
    | cs => cs
  match digitsToNat cs with
  | some n => if n < 2 ^ 64 then some n else none
  | none => none

/-- Join tokens with single spaces, modelling slice::join(" "). -/
def joinSpace : List String → String
  | [] => ""
  | [t] => t
  | t :: ts => t ++ " " ++ joinSpace ts

/-- One step of SearchQuery::parse over a single whitespace token: a
`key:value` token with a recognized key updates the corresponding filter
(after/before only when the chrono parser accepts the value, limit only when
usize parsing accepts it); every other token is appended to the semantic
parts. The chrono RFC-3339 parser enters as the parameter p. -/
def parseStep (p : String → Option DateTimeUtc)
    (acc : SearchQuery × List String) (token : String) : SearchQuery × List String :=
  match splitOnceColon token with
  | some (key, value) =>
    let k := strToLower key
    if k = "author" then ({ acc.1 with author := some value }, acc.2)
    else if k = "lang" ∨ k = "language" then
      ({ acc.1 with lang := some (Language.fromStr value) }, acc.2)
    else if k = "after" then
      match p value with
      | some dt => ({ acc.1 with after := some dt }, acc.2)
      | none => acc
    else if k = "before" then
      match p value with
      | some dt => ({ acc.1 with before := some dt }, acc.2)
      | none => acc
    else if k = "file" ∨ k = "path" then
      ({ acc.1 with file_pattern := some value }, acc.2)
    else if k = "limit" then
      match parseUsize value with
      | some l => ({ acc.1 with limit := l }, acc.2)
      | none => acc
    else (acc.1, acc.2 ++ [token])
  | none => (acc.1, acc.2 ++ [token])

/-- SearchQuery::parse — fold the tokens left to right starting from the
default query with limit 10, then join the collected semantic parts with
single spaces into raw_query. -/
def SearchQuery.parse (p : String → Option DateTimeUtc) (input : String) : SearchQuery :=
  let init : SearchQuery :=
    { raw_query := "", author := none, lang := none, after := none,
      before := none, file_pattern := none, limit := 10 }
  let r := (splitWhitespace input).foldl (parseStep p) (init, [])
  { r.1 with raw_query := joinSpace r.2 }

/-- Keys recognized by the parser, after case fold. -/
def recognizedKeys : List String :=
  ["author", "lang", "language", "after", "before", "file", "path", "limit"]

/-- Whether a token is a `key:value` token with a recognized key. -/
def isFilterTok (t : String) : Bool :=
  match splitOnceColon t with
  | some (k, _) => recognizedKeys.contains (strToLower k)
  | none => false

/-- Values carried by tokens whose (case-folded) key is in the given list,
in token order. -/
def keyFilterVals (keys : List String) (ts : List String) : List String :=
  ts.filterMap fun t =>
    match splitOnceColon t with
    | some (k, v) => if keys.contains (strToLower k) then some v else none
    | none => none

/-- Last-write-wins accumulator: the result of overwriting a default with
each list element in turn. -/
def lastUpd (l : List α) (d : α) : α :=
  l.foldl (fun _ v => v) d

/-! ## SQLite LIKE and string helpers -/

/-- ASCII lowercase fold, the case fold SQLite's default LIKE applies. -/
def asciiLower (c : Char) : Char :=
  if 'A' ≤ c ∧ c ≤ 'Z' then Char.ofNat (c.toNat + 32) else c

/-- SQLite LIKE over character lists: `%` matches any sequence, `_` any one
character, other characters compare under ASCII case folding. Every step
shortens pattern or text, so fuel equal to their combined length suffices. -/
def likeFuel : Nat → List Char → List Char → Bool
  | 0, _, _ => false
  | fuel + 1, ps, ts =>
    match ps, ts with
    | [], [] => true
    | '%' :: ps', ts =>
      likeFuel fuel ps' ts ||
        (match ts with
         | [] => false
         | _ :: ts' => likeFuel fuel ('%' :: ps') ts')
    | '_' :: ps', _ :: ts' => likeFuel fuel ps' ts'
    | '_' :: _, [] => false
    | c :: ps', t :: ts' => (asciiLower c = asciiLower t) && likeFuel fuel ps' ts'
    | _ :: _, [] => false
    | [], _ :: _ => false

/-- SQLite `text LIKE pattern` (pattern first here). -/
def sqliteLike (pat text : String) : Bool :=
  likeFuel (pat.data.length + text.data.length + 1) pat.data text.data

/-- SQL REPLACE(name, '-', '_'). -/
def replaceDashUnderscore (s : String) : String :=
  ⟨s.data.map fun c => if c = '-' then '_' else c⟩

/-! ## Store rows (the SQLite schema of storage/sqlite.rs) -/

/-- A row of the chunks table (the columns the verified paths read). -/
structure ChunkRow where
  content_hash : String
  content : String
  language : String
  chunk_kind : String
  symbol_name : Option String
  docstring : Option String
  module_id : Option String
  deriving DecidableEq, Repr

/-- A row of the locations table. -/
structure LocationRow where
  content_hash : String
  file_path : String
  byte_start : Nat
  byte_end : Nat
  line_start : Nat
  line_end : Nat
  commit_hash : Option String
  author : Option String
  timestamp : Option String
  deriving DecidableEq, Repr

/-- A row of the embeddings table. -/
structure EmbeddingRow where
  content_hash : String
  model_id : String
  vector : List ℚ
  dimensions : Nat
  deriving DecidableEq, Repr

/-- A row of the edges table. -/
structure EdgeRow where
  source_hash : String
  target_query : String
  edge_kind : String
  line_number : Option Nat
  deriving DecidableEq, Repr

/-- A row of the modules table. -/
structure ModuleRow where
  id : String
  name : String
  path : String
  language : String
  project_type : String
  parent_id : Option String
  deriving DecidableEq, Repr

/-- The persistent store: one list per table, in rowid (insertion) order. -/
structure Store where
  modules : List ModuleRow
  chunks : List ChunkRow
  embeddings : List EmbeddingRow
  locations : List LocationRow
  edges : List EdgeRow
  deriving Repr

/-! ## Keyed store writes (ChunkStore::put, VectorStore::put,
LocationStore::put_location) -/

/-- ChunkStore::put — INSERT OR REPLACE keyed on the content_hash primary
key: the conflicting row is deleted and the new row appended. (The source
also shadows the chunk into the chunks_fts table; that table carries no key
and is outside the chunk/embedding/location key equivalence at issue.) -/
def putChunk (table : List ChunkRow) (c : ChunkRow) : List ChunkRow :=
  (table.filter fun r => r.content_hash ≠ c.content_hash) ++ [c]

/-- VectorStore::put — INSERT OR REPLACE keyed on the content_hash primary
key of the embeddings table. -/
def putEmbedding (table : List EmbeddingRow) (e : EmbeddingRow) : List EmbeddingRow :=
  (table.filter fun r => r.content_hash ≠ e.content_hash) ++ [e]

/-- Conflict test of the UNIQUE(content_hash, file_path, commit_hash) index
on locations: SQLite compares NULL as distinct from every value including
NULL, so rows with an absent commit_hash never conflict. -/
def locationConflict (a b : LocationRow) : Bool :=
  a.content_hash = b.content_hash && a.file_path = b.file_path &&
    (match a.commit_hash, b.commit_hash with
     | some x, some y => x = y
     | _, _ => false)

/-- LocationStore::put_location — INSERT OR REPLACE: rows conflicting on the
unique index are deleted, then the new row is appended (its autoincrement id
is fresh, so the primary key never conflicts). -/
def putLocation (table : List LocationRow) (l : LocationRow) : List LocationRow :=
  (table.filter fun r => ¬ locationConflict r l) ++ [l]

/-- A concrete location without commit attribution, as the non-git indexing
path constructs with ChunkLocation::new. -/
def locNoCommit : LocationRow :=
  { content_hash := "aaaaaaaaaaaaaaaaaaaaaaaaaaaaaaaaaaaaaaaaaaaaaaaaaaaaaaaaaaaaaaaa"
    file_path := "src/lib.rs"
    byte_start := 0, byte_end := 12, line_start := 1, line_end := 1
    commit_hash := none, author := none, timestamp := none }

/-! ## Crate-level module rollup (ModuleStore::get_unified_graph) -/

/-- First module row with the given id (modules.id is the primary key). -/
def moduleById (ms : List ModuleRow) (mid : String) : Option ModuleRow :=
  ms.find? fun m => m.id = mid

/-- The crate_map recursive CTE: a non-directory module maps to itself; a
directory module maps to its parent's crate. Fuel bounds the parent walk (the
CTE itself diverges on a parent cycle; any forest is covered by the module
count). -/
def crateOfFuel (ms : List ModuleRow) : Nat → String → Option String
  | 0, _ => none
  | fuel + 1, mid =>
    match moduleById ms mid with
    | none => none
    | some m =>
      if m.project_type ≠ "directory" then some m.id
      else
        match m.parent_id with
        | some pid => crateOfFuel ms fuel pid
        | none => none

/-- Crate id a module rolls up to. -/
def crateOf (ms : List ModuleRow) (mid : String) : Option String :=
  crateOfFuel ms ms.length mid

/-- Source-side join of both rollup branches: the edge's source chunk exists
and its module rolls up to the queried crate. -/
def sourceInCrate (s : Store) (sc : String) (e : EdgeRow) : Bool :=
  s.chunks.any fun c1 =>
    c1.content_hash = e.source_hash &&
      (match c1.module_id with
       | some mid => crateOf s.modules mid = some sc
       | none => false)

/-- Branch 1 of the crate-level dependency query: direct symbol matching —
some chunk c2 has symbol_name equal to target_query and rolls up to a crate
different from the queried one. -/
def countedByDirect (s : Store) (sc : String) (e : EdgeRow) : Bool :=
  sourceInCrate s sc e &&
    (s.chunks.any fun c2 =>
      (match c2.symbol_name with
       | some sym => sym = e.target_query
       | none => false) &&
      (match c2.module_id with
       | some mid =>
         match crateOf s.modules mid with
         | some cid => cid ≠ sc
         | none => false
       | none => false))

/-- The name condition of branch 2: target_query equals the module name, or
the name with '-' replaced by '_', or LIKE-starts with either followed by
'::'. -/
def prefixNameMatch (m2 : ModuleRow) (tq : String) : Bool :=
  sqliteLike (replaceDashUnderscore m2.name ++ "::%") tq ||
    tq = replaceDashUnderscore m2.name ||
    sqliteLike (m2.name ++ "::%") tq ||
    tq = m2.name

/-- Branch 2 of the crate-level dependency query: symbol-prefix matching via
module names, guarded by NOT EXISTS of a chunk carrying exactly the
target_query as its symbol name. -/
def countedByPrefix (s : Store) (sc : String) (m2 : ModuleRow) (e : EdgeRow) : Bool :=
  sourceInCrate s sc e &&
    s.modules.contains m2 &&
    m2.project_type ≠ "directory" &&
    m2.id ≠ sc &&
    prefixNameMatch m2 e.target_query &&
    !(s.chunks.any fun c3 =>
      match c3.symbol_name with
      | some sym => sym = e.target_query
      | none => false)

/-! ## Concrete rollup fixture (witness inputs for the disjointness rule) -/

/-- A crate module named appcrate. -/
def crateA : ModuleRow :=
  { id := "a", name := "appcrate", path := "a", language := "rust",
    project_type := "crate", parent_id := none }

/-- A crate module whose name carries a dash. -/
def crateB : ModuleRow :=
  { id := "b", name := "util-lib", path := "b", language := "rust",
    project_type := "crate", parent_id := none }

/-- A chunk living in crate a. -/
def rollupChunk : ChunkRow :=
  { content_hash := "c1", content := "fn main() ...",
    language := "rust", chunk_kind := "function", symbol_name := some "main",
    docstring := none, module_id := some "a" }

/-- An edge from the chunk in crate a to a prefix of the dashed crate name. -/
def rollupEdge : EdgeRow :=
  { source_hash := "c1", target_query := "util_lib::helper",
    edge_kind := "calls", line_number := some 1 }

/-- A store where the prefix rule fires for the edge and no chunk carries the
target symbol. -/
def rollupStore : Store :=
  { modules := [crateA, crateB], chunks := [rollupChunk],
    embeddings := [], locations := [], edges := [rollupEdge] }

/-! ## Hybrid query engine (QueryStore::query) -/

/-- Whether any metadata filter of the query is set (the condition guarding
the candidate-set computation). -/
def anyFilterSet (q : SearchQuery) : Bool :=
  q.author.isSome || q.lang.isSome || q.after.isSome || q.before.isSome ||
    q.file_pattern.isSome

/-- SQL condition `(l.author LIKE '%a%' OR l.author = a)` under three-valued
logic: TRUE only when a joined location row with a non-NULL author passes. -/
def authorCondTrue (q : SearchQuery) (l : Option LocationRow) : Bool :=
  match q.author with
  | none => true
  | some a =>
    match l with
    | some lr =>
      match lr.author with
      | some la => sqliteLike ("%" ++ a ++ "%") la || la = a
      | none => false
    | none => false

/-- SQL condition `c.language = lang` (the chunk column is never NULL). -/
def langCondTrue (q : SearchQuery) (c : ChunkRow) : Bool :=
  match q.lang with
  | none => true
  | some lg => c.language = lg.asStr

/-- SQL condition `l.timestamp >= after` — SQLite compares the TEXT column
against the RFC-3339 rendering byte-wise. -/
def afterCondTrue (q : SearchQuery) (l : Option LocationRow) : Bool :=
  match q.after with
  | none => true
  | some ts =>
    match l with
    | some lr =>
      match lr.timestamp with
      | some lts => decide (ts.rfc3339 ≤ lts)
      | none => false
    | none => false

/-- SQL condition `l.timestamp <= before`. -/
def beforeCondTrue (q : SearchQuery) (l : Option LocationRow) : Bool :=
  match q.before with
  | none => true
  | some ts =>
    match l with
    | some lr =>
      match lr.timestamp with
      | some lts => decide (lts ≤ ts.rfc3339)
      | none => false
    | none => false

/-- SQL condition `l.file_path LIKE '%pattern%'`. -/
def fileCondTrue (q : SearchQuery) (l : Option LocationRow) : Bool :=
  match q.file_pattern with
  | none => true
  | some patt =>
    match l with
    | some lr => sqliteLike ("%" ++ patt ++ "%") lr.file_path
    | none => false

/-- Rows the LEFT JOIN produces for one chunk: one row per matching
location, or a single NULL row when the chunk has no locations. -/
def chunkLocRows (s : Store) (c : ChunkRow) : List (Option LocationRow) :=
  let ls := s.locations.filter fun l => l.content_hash = c.content_hash
  if ls.isEmpty then [none] else ls.map some

/-- Conjunction of all five filter conditions on one joined row. -/
def rowPasses (q : SearchQuery) (c : ChunkRow) (l : Option LocationRow) : Bool :=
  authorCondTrue q l && langCondTrue q c && afterCondTrue q l &&
    beforeCondTrue q l && fileCondTrue q l

/-- The candidate hash set F of the filter stage: none models the absent set
(no filter given, so no restriction); otherwise the DISTINCT content hashes
of chunks with some passing joined row. -/
def candidateHashes (s : Store) (q : SearchQuery) : Option (List String) :=
  if anyFilterSet q then
    some (((s.chunks.filter fun c => (chunkLocRows s c).any (rowPasses q c)).map
      fun c => c.content_hash))
  else none

/-- Membership in the optional candidate set (HashSet::contains; everything
passes when no filter was computed). -/
def inFilter (hs : Option (List String)) (h : String) : Bool :=
  match hs with
  | some l => l.contains h
  | none => true

/-- Vector stage: score every stored embedding against the query embedding
(the stored row is rebuilt with the query's dimensions field, as the source
does), then restrict to the candidate set. -/
def vectorResults (sqrtFn : ℚ → ℚ) (F : Option (List String)) (s : Store)
    (emb : Embedding) : List (String × ℚ) :=
  (s.embeddings.map fun r =>
    (r.content_hash,
      cosineSimilarity sqrtFn emb
        { vector := r.vector, model_id := "", dimensions := emb.dimensions })).filter
    fun p => inFilter F p.1

/-- Lexical stage: the FTS5 engine's rank-ordered rows (an external input,
capped at 100 by the SQL LIMIT), restricted to the candidate set; empty when
the free-text query is empty. -/
def lexicalResults (F : Option (List String)) (raw : String)
    (ftsRows : List (String × ℚ)) : List (String × ℚ) :=
  if raw ≠ "" then (ftsRows.take 100).filter (fun p => inFilter F p.1) else []

/-- Stable insertion into a list sorted by descending score: the new element
goes before the first element whose score does not exceed it. -/
def insertScoreDesc (x : String × ℚ) : List (String × ℚ) → List (String × ℚ)
  | [] => [x]
  | y :: ys => if y.2 ≤ x.2 then x :: y :: ys else y :: insertScoreDesc x ys

/-- Stable sort by descending score. Rust's sort_by with the comparator
`b.partial_cmp(a)` is a stable descending sort, and a stable sort is the
unique comparator-sorted permutation preserving the relative order of tied
elements, so stable insertion sort is the same function. -/
def sortByScoreDesc : List (String × ℚ) → List (String × ℚ)
  | [] => []
  | x :: xs => insertScoreDesc x (sortByScoreDesc xs)

/-- RRF weight of the 1-indexed rank i+1: 1 / (k + rank) with k = 60. -/
def rrfWeight (i : Nat) : ℚ :=
  1 / (60 + ((i : ℚ) + 1))

/-- HashMap entry(h).or_insert(0.0) += s over the association-list view of
the score map: update the entry when the key is present, otherwise add the
key with value 0 + s. -/
def rrfInsert : List (String × ℚ) → String → ℚ → List (String × ℚ)
  | [], h, s => [(h, s)]
  | p :: m, h, s => if p.1 = h then (p.1, p.2 + s) :: m else p :: rrfInsert m h s

/-- Fold one enumerated ranked list into the score map. -/
def rrfAddEnum (m : List (String × ℚ)) (pairs : List (Nat × String)) :
    List (String × ℚ) :=
  pairs.foldl (fun acc p => rrfInsert acc p.2 (rrfWeight p.1)) m

/-- Add a ranked list with ranks enumerated from zero. -/
def rrfAddList (m : List (String × ℚ)) (hashes : List String) : List (String × ℚ) :=
  rrfAddEnum m hashes.enum

/-- The fused score map: the vector-sorted list folded in first, then the
lexical list. -/
def rrfScores (vecHashes lexHashes : List String) : List (String × ℚ) :=
  rrfAddList (rrfAddList [] vecHashes) lexHashes

/-- Score of a hash in the map, zero when absent. -/
def rrfGet (m : List (String × ℚ)) (h : String) : ℚ :=
  match m.find? (fun p => p.1 = h) with
  | some p => p.2
  | none => 0

/-- Reciprocal-rank contribution of one list when ranks start at i0. -/
def rrfContribFrom (i0 : Nat) (hashes : List String) (h : String) : ℚ :=
  match hashes.findIdx? (fun x => x = h) i0 with
  | some i => rrfWeight i
  | none => 0

/-- Reciprocal-rank contribution of one ranked list to one hash: the weight
of its 1-indexed position, zero when absent. -/
def rrfContrib (hashes : List String) (h : String) : ℚ :=
  rrfContribFrom 0 hashes h

/-- QueryStore::query: candidate set, vector scan, lexical results,
reciprocal-rank fusion, final stable sort by descending fused score,
truncation to the query limit. The f32 square root, the FTS5 engine's rows
and the hash-map iteration order (shuffle) are external inputs. -/
def queryFn (sqrtFn : ℚ → ℚ) (ftsRows : List (String × ℚ))
    (shuffle : List (String × ℚ) → List (String × ℚ)) (s : Store)
    (q : SearchQuery) (emb : Embedding) : List (String × ℚ) :=
  let F := candidateHashes s q
  let vec := vectorResults sqrtFn F s emb
  let lex := lexicalResults F q.raw_query ftsRows
  let vecSorted := sortByScoreDesc vec
  let scores := rrfScores (vecSorted.map fun p => p.1) (lex.map fun p => p.1)
  let final := sortByScoreDesc (shuffle scores)
  final.take q.limit

/-! ## Spec-side comparison definition for the filter stage, and fixtures -/

/-- Spec-side definition, following the spec's words for comparison with the
source's candidateHashes: join each chunk with its most-recent location (the
last matching row in insertion order — locations carry a creation
timestamp), not with every location. -/
def specMostRecentLoc (s : Store) (c : ChunkRow) : Option LocationRow :=
  (s.locations.filter fun l => l.content_hash = c.content_hash).getLast?

/-- Spec-side candidate set built from the most-recent location only. -/
def specCandidateHashes (s : Store) (q : SearchQuery) : Option (List String) :=
  if anyFilterSet q then
    some ((s.chunks.filter fun c => rowPasses q c (specMostRecentLoc s c)).map
      fun c => c.content_hash)
  else none

/-- A chunk whose attribution changed between two indexed commits. -/
def filterChunk : ChunkRow :=
  { content_hash := "h1", content := "fn parse() ...", language := "rust",
    chunk_kind := "function", symbol_name := some "parse", docstring := none,
    module_id := none }

/-- The older location of the chunk, authored by alice. -/
def locOld : LocationRow :=
  { content_hash := "h1", file_path := "src/a.rs", byte_start := 0, byte_end := 10,
    line_start := 1, line_end := 2, commit_hash := some "c-old",
    author := some "alice", timestamp := some "2024-01-01T00:00:00+00:00" }

/-- The newer location of the chunk, authored by bob. -/
def locNew : LocationRow :=
  { content_hash := "h1", file_path := "src/a.rs", byte_start := 0, byte_end := 10,
    line_start := 1, line_end := 2, commit_hash := some "c-new",
    author := some "bob", timestamp := some "2024-06-01T00:00:00+00:00" }

/-- A store where the chunk has both locations, the older one first. -/
def filterStore : Store :=
  { modules := [], chunks := [filterChunk], embeddings := [],
    locations := [locOld, locNew], edges := [] }

/-- The query author:alice — only the old location matches. -/
def filterQuery : SearchQuery :=
  { raw_query := "", author := some "alice", lang := none, after := none,
    before := none, file_pattern := none, limit := 10 }

/-! ## Fixtures for the final-ordering counterexample -/

/-- A store holding one embedding under the lexicographically larger hash. -/
def tieStore : Store :=
  { modules := [], chunks := [], embeddings :=
      [{ content_hash := "zzzz", model_id := "m", vector := [1], dimensions := 1 }],
    locations := [], edges := [] }

/-- A filterless free-text query with the default limit. -/
def tieQuery : SearchQuery :=
  { raw_query := "x", author := none, lang := none, after := none,
    before := none, file_pattern := none, limit := 10 }

/-- FTS rows: the engine returns the lexicographically smaller hash. -/
def tieFts : List (String × ℚ) := [("aaaa", -1)]

/-- The query embedding of the tie fixture. -/
def tieEmb : Embedding := { vector := [1], model_id := "m", dimensions := 1 }

/-! ## Module-cycle detection (storage/utils.rs, find_module_cycles) -/

/-- State threaded through the cycle-finding DFS: the visited set, the
on-stack map from module id to its index on the path, the current path, and
the cycles reported so far. -/
structure DfsState where
  visited : List String
  onStack : List (String × Nat)
  path : List String
  cycles : List (List String)
  deriving Repr, DecidableEq

/-- HashMap::get on the on-stack map (association-list view). -/
def lookupOS (os : List (String × Nat)) (v : String) : Option Nat :=
  (os.find? fun p => p.1 = v).map fun p => p.2

/-- HashMap::get on the module adjacency built by find_module_cycles. -/
def adjGet (adjList : List (String × List String)) (u : String) : Option (List String) :=
  (adjList.find? fun p => p.1 = u).map fun p => p.2

/-- Dependency list of a module (empty when the id carries no entry, as the
source's if-let makes absent keys loop over nothing). -/
def adjDeps (adjList : List (String × List String)) (u : String) : List String :=
  (adjGet adjList u).getD []

/-- The neighbor loop of dfs_find_module_cycles: an on-stack neighbor emits
the path slice from its stack index, closed by the neighbor itself; an
unvisited neighbor is recursed into via f; a visited off-stack neighbor is
skipped. -/
def processNeighbors (f : String → DfsState → DfsState) (st : DfsState) :
    List String → DfsState
  | [] => st
  | v :: vs =>
    let st' :=
      match lookupOS st.onStack v with
      | some idx => { st with cycles := st.cycles ++ [st.path.drop idx ++ [v]] }
      | none => if v ∈ st.visited then st else f v st
    processNeighbors f st' vs

/-- dfs_find_module_cycles: mark visited, push onto the stack and path,
process the neighbors, then pop. Fuel bounds the recursion depth (each
nested call visits a previously unvisited module, so the total module count
suffices). -/
def dfsVisit (adjList : List (String × List String)) :
    Nat → String → DfsState → DfsState
  | 0, _, st => st
  | fuel + 1, u, st =>
    let st1 : DfsState :=
      { visited := u :: st.visited
        onStack := (u, st.path.length) :: st.onStack
        path := st.path ++ [u]
        cycles := st.cycles }
    let st2 := processNeighbors (dfsVisit adjList fuel) st1 (adjDeps adjList u)
    { st2 with
        onStack := st2.onStack.filter fun p => p.1 ≠ u
        path := st2.path.dropLast }

/-- find_module_cycles over a given module adjacency (module id with its
dependency ids, as built from get_module_dependencies): run the DFS from
every not-yet-visited key and collect the reported cycles. Keys are
iterated in list order; the source iterates them in hash-map order, which
only matters for the order cycles are reported in, not their shape. -/
def findModuleCycles (adjList : List (String × List String)) : List (List String) :=
  let fuel := (adjList.map Prod.fst ++ adjList.flatMap Prod.snd).length + 1
  let final := (adjList.map Prod.fst).foldl
    (fun st k => if k ∈ st.visited then st else dfsVisit adjList fuel k st)
    { visited := [], onStack := [], path := [], cycles := [] }
  final.cycles

/-- Consecutive elements of the list are adjacent: every element is followed
only by one of its dependencies. -/
def pathChain (adjList : List (String × List String)) (l : List String) : Prop :=
  ∀ i a b, l[i]? = some a → l[i + 1]? = some b → b ∈ adjDeps adjList a

/-- A well-formed reported cycle: at least two entries, the last repeats the
first, and consecutive entries (including the closing pair) are adjacent. -/
def goodCycle (adjList : List (String × List String)) (c : List String) : Prop :=
  2 ≤ c.length ∧ c.head? = c.getLast? ∧ pathChain adjList c

/-- The DFS invariant: on-stack entries point at their own path positions,
the path is a dependency chain, on-stack keys are visited, and every
reported cycle is well-formed. -/
def dfsInv (adjList : List (String × List String)) (st : DfsState) : Prop :=
  (∀ p ∈ st.onStack, p.2 < st.path.length ∧ st.path[p.2]? = some p.1) ∧
  pathChain adjList st.path ∧
  (∀ p ∈ st.onStack, p.1 ∈ st.visited) ∧
  (∀ c ∈ st.cycles, goodCycle adjList c)

/-! ## Dependency-tree renderer (storage/utils.rs, render_tree_string) -/

/-- ChunkStore::find_by_symbol — chunks whose symbol_name equals the query
(SQL equality never matches a NULL symbol). -/
def findBySymbol (s : Store) (sym : String) : List ChunkRow :=
  s.chunks.filter fun c => c.symbol_name = some sym

/-- The language suffix printed for root symbols: the first matching chunk's
language, read back through Language::from_str as find_by_symbol does. -/
def langSuffix (s : Store) (sym : String) : String :=
  match findBySymbol s sym with
  | c :: _ => " [" ++ (Language.fromStr c.language).asStr ++ "]"
  | [] => ""

/-- Ascending insertion for the dependency sort (Vec::sort on strings; equal
strings are identical, so any stable or unstable sort agrees). -/
def insertStrAsc (x : String) : List String → List String
  | [] => [x]
  | y :: ys => if x ≤ y then x :: y :: ys else y :: insertStrAsc x ys

/-- Lexicographic sort of the collected dependencies. -/
def sortStrings : List String → List String
  | [] => []
  | x :: xs => insertStrAsc x (sortStrings xs)

/-- Vec::dedup — collapse runs of consecutive equal strings. -/
def dedupAdj : List String → List String
  | [] => []
  | [x] => [x]
  | x :: y :: rest =>
    if x = y then dedupAdj (y :: rest) else x :: dedupAdj (y :: rest)

/-- The outgoing dependencies of a symbol: targets of the edges of every
chunk carrying the symbol, sorted and deduplicated as render_recursive
does. -/
def symbolDeps (s : Store) (sym : String) : List String :=
  dedupAdj (sortStrings ((findBySymbol s sym).flatMap fun c =>
    (s.edges.filter fun e => e.source_hash = c.content_hash).map
      fun e => e.target_query))

/-- The child loop of render_recursive: each dependency is rendered with its
index deciding the is-last connector; f is the recursive call one fuel
lower. -/
def renderChildren
    (f : String → String → Bool → List String × String → Option (List String × String))
    (childPfx : String) (len : Nat) :
    Nat → List String → List String × String → Option (List String × String)
  | _, [], st => some st
  | i, d :: ds, st =>
    match f d childPfx (decide (i = len - 1)) st with
    | some st' => renderChildren f childPfx len (i + 1) ds st'
    | none => none

/-- render_recursive: print the node (with connector and, at the root, the
language suffix), report a cycle on a revisited symbol, otherwise mark it
visited and recurse into its sorted deduplicated dependencies. The state is
(visited set, output); fuel bounds nesting and none marks exhaustion. -/
def renderRec (s : Store) : Nat → String → String → Bool → Nat → Nat →
    List String × String → Option (List String × String)
  | 0, _, _, _, _, _, _ => none
  | fuel + 1, symbol, pfx, isLast, curDepth, maxDepth, (visited, output) =>
    if curDepth > maxDepth then some (visited, output)
    else
      let connector :=
        if curDepth > 0 then (if isLast then "└── " else "├── ") else ""
      let suffix := if curDepth = 0 then langSuffix s symbol else ""
      let output := output ++ pfx ++ connector ++ symbol ++ suffix ++ "\n"
      if symbol ∈ visited then
        some (visited, output ++ pfx ++ "    (cycle detected)\n")
      else
        let visited := symbol :: visited
        let deps := symbolDeps s symbol
        let childPfx :=
          pfx ++ (if curDepth = 0 then "" else if isLast then "    " else "│   ")
        renderChildren
          (fun d p il st => renderRec s fuel d p il (curDepth + 1) maxDepth st)
          childPfx deps.length 0 deps (visited, output)

/-- render_tree_string: run the recursion from the symbol with an empty
visited set and empty output. The fuel is three more than the edge count,
which the termination theorem shows is never exhausted. -/
def renderTreeString (s : Store) (symbol : String) (depth : Nat) : Option String :=
  (renderRec s (s.edges.length + 3) symbol "" true 0 depth ([], "")).map fun st => st.2

/-- All edge targets of the store: every symbol the renderer can descend
into below the root. -/
def allTargets (s : Store) : List String :=
  s.edges.map fun e => e.target_query

/-- Termination measure of the renderer: how many distinct edge targets are
not yet visited. -/
def renderMeasure (s : Store) (visited : List String) : Nat :=
  ((allTargets s).toFinset \ visited.toFinset).card

/-! # Theorems -/

/-! ## C9 — content-hash hex round-trip -/

theorem hexVal_hexDigitChar {n : Nat} (h : n < 16) :
    hexVal (hexDigitChar n) = some n := by
  interval_cases n <;> decide

theorem hexDecodeChars_byteToHex (bs : List Nat) (h : ∀ b ∈ bs, b < 256) :
    hexDecodeChars (bs.flatMap byteToHex) = some bs := by
  induction bs with
  | nil => rfl
  | cons b rest ih =>
    have hb : b < 256 := h b (List.mem_cons_self _ _)
    have hrest : ∀ x ∈ rest, x < 256 := fun x hx => h x (List.mem_cons_of_mem _ hx)
    have h1 : b / 16 < 16 := by omega
    have h2 : b % 16 < 16 := by omega
    show hexDecodeChars
        (hexDigitChar (b / 16) :: hexDigitChar (b % 16) :: rest.flatMap byteToHex)
        = some (b :: rest)
    simp only [hexDecodeChars, hexVal_hexDigitChar h1, hexVal_hexDigitChar h2, ih hrest]
    have : b / 16 * 16 + b % 16 = b := by omega
    rw [this]

/-- C9: for every 32-byte content hash, from_hex (to_hex h) succeeds and
returns a hash equal to h (hex round-trip). -/
theorem contentHash_hex_roundtrip (h : ContentHash) :
    ContentHash.from_hex (ContentHash.to_hex h) = some h := by
  unfold ContentHash.from_hex ContentHash.to_hex
  rw [hexDecodeChars_byteToHex h.val h.prop.2]
  exact dif_pos h.prop

/-! ## C10 — cosine similarity is total and guarded -/

/-- C10: cosine_similarity is total and never divides by zero: it returns 0
whenever the dimensions fields differ, and whenever either computed norm is
zero; otherwise it returns the dot product divided by the product of norms,
whose denominator is then provably nonzero. -/
theorem cosineSimilarity_safe (sqrtFn : ℚ → ℚ) (a b : Embedding) :
    (a.dimensions ≠ b.dimensions → cosineSimilarity sqrtFn a b = 0) ∧
    (a.dimensions = b.dimensions →
      (sqrtFn (sumSquares a.vector) = 0 ∨ sqrtFn (sumSquares b.vector) = 0) →
      cosineSimilarity sqrtFn a b = 0) ∧
    (a.dimensions = b.dimensions →
      sqrtFn (sumSquares a.vector) ≠ 0 → sqrtFn (sumSquares b.vector) ≠ 0 →
      sqrtFn (sumSquares a.vector) * sqrtFn (sumSquares b.vector) ≠ 0 ∧
      cosineSimilarity sqrtFn a b =
        dotZip a.vector b.vector /
          (sqrtFn (sumSquares a.vector) * sqrtFn (sumSquares b.vector))) := by
  refine ⟨fun hne => ?_, fun heq hzero => ?_, fun heq hA hB => ?_⟩
  · simp [cosineSimilarity, hne]
  · simp only [cosineSimilarity, heq, ne_eq, not_true_eq_false, if_false]
    simp [hzero]
  · refine ⟨mul_ne_zero hA hB, ?_⟩
    simp only [cosineSimilarity, heq, ne_eq, not_true_eq_false, if_false]
    simp [hA, hB]

/-- C10 witness: the three branches of cosineSimilarity_safe discharged at
concrete embeddings (a dimensions mismatch, a zero vector, and a pair of
unit-length vectors under the exact square root of 1). -/
theorem cosineSimilarity_safe_witness :
    cosineSimilarity (fun x => x) ⟨[1], "m", 1⟩ ⟨[1, 0], "m", 2⟩ = 0 ∧
    cosineSimilarity (fun x => x) ⟨[0], "m", 1⟩ ⟨[1], "m", 1⟩ = 0 ∧
    cosineSimilarity (fun x => x) ⟨[1], "m", 1⟩ ⟨[1], "m", 1⟩ = 1 / (1 * 1) := by
  have hs0 : sumSquares ([0] : List ℚ) = 0 := by simp [sumSquares]
  have hs1 : sumSquares ([1] : List ℚ) = 1 := by simp [sumSquares]
  refine ⟨(cosineSimilarity_safe (fun x => x) _ _).1 (by decide), ?_, ?_⟩
  · exact (cosineSimilarity_safe (fun x => x) _ _).2.1 rfl (Or.inl hs0)
  · have h := (cosineSimilarity_safe (fun x => x) ⟨[1], "m", 1⟩ ⟨[1], "m", 1⟩).2.2
      rfl (by rw [hs1]; norm_num) (by rw [hs1]; norm_num)
    calc cosineSimilarity (fun x => x) ⟨[1], "m", 1⟩ ⟨[1], "m", 1⟩
        = dotZip [1] [1] / (sumSquares [1] * sumSquares [1]) := h.2
      _ = 1 / (1 * 1) := by rw [hs1]; simp [dotZip]

/-! ## C8 — query parsing -/

theorem lastUpd_nil (d : α) : lastUpd [] d = d := rfl

theorem lastUpd_cons (x : α) (l : List α) (d : α) :
    lastUpd (x :: l) d = lastUpd l x := rfl

theorem lastUpd_map_some (l : List α) (d : Option α) :
    lastUpd (l.map some) d = (l.getLast?).or d := by
  induction l generalizing d with
  | nil => rfl
  | cons x l ih =>
    rw [List.map_cons, lastUpd_cons, ih]
    cases l with
    | nil => rfl
    | cons y l =>
      have hs : (y :: l).getLast?.isSome := by
        rw [List.getLast?_isSome]
        simp
      obtain ⟨z, hz⟩ := Option.isSome_iff_exists.mp hs
      rw [List.getLast?_cons_cons, hz]
      rfl

theorem lastUpd_eq_getLastD (l : List α) (d : α) :
    lastUpd l d = l.getLastD d := by
  induction l generalizing d with
  | nil => rfl
  | cons x l ih => rw [lastUpd_cons, ih, List.getLastD_cons]

theorem parseStep_split_none {p} {t : String} (h : splitOnceColon t = none)
    (acc : SearchQuery × List String) :
    parseStep p acc t = (acc.1, acc.2 ++ [t]) := by
  simp [parseStep, h]

theorem parseStep_author {p} {t key value : String}
    (h : splitOnceColon t = some (key, value)) (hk : strToLower key = "author")
    (acc : SearchQuery × List String) :
    parseStep p acc t = ({ acc.1 with author := some value }, acc.2) := by
  simp [parseStep, h, hk]

theorem parseStep_lang {p} {t key value : String}
    (h : splitOnceColon t = some (key, value))
    (hk : strToLower key = "lang" ∨ strToLower key = "language")
    (acc : SearchQuery × List String) :
    parseStep p acc t = ({ acc.1 with lang := some (Language.fromStr value) }, acc.2) := by
  rcases hk with hk | hk <;> simp [parseStep, h, hk]

theorem parseStep_after {p : String → Option DateTimeUtc} {t key value : String}
    (h : splitOnceColon t = some (key, value)) (hk : strToLower key = "after")
    (acc : SearchQuery × List String) :
    parseStep p acc t =
      (match p value with
       | some dt => ({ acc.1 with after := some dt }, acc.2)
       | none => acc) := by
  simp [parseStep, h, hk]

theorem parseStep_before {p : String → Option DateTimeUtc} {t key value : String}
    (h : splitOnceColon t = some (key, value)) (hk : strToLower key = "before")
    (acc : SearchQuery × List String) :
    parseStep p acc t =
      (match p value with
       | some dt => ({ acc.1 with before := some dt }, acc.2)
       | none => acc) := by
  simp [parseStep, h, hk]

theorem parseStep_file {p} {t key value : String}
    (h : splitOnceColon t = some (key, value))
    (hk : strToLower key = "file" ∨ strToLower key = "path")
    (acc : SearchQuery × List String) :
    parseStep p acc t = ({ acc.1 with file_pattern := some value }, acc.2) := by
  rcases hk with hk | hk <;> simp [parseStep, h, hk]

theorem parseStep_limit {p} {t key value : String}
    (h : splitOnceColon t = some (key, value)) (hk : strToLower key = "limit")
    (acc : SearchQuery × List String) :
    parseStep p acc t =
      (match parseUsize value with
       | some l => ({ acc.1 with limit := l }, acc.2)
       | none => acc) := by
  simp [parseStep, h, hk]

theorem parseStep_unknown {p} {t key value : String}
    (h : splitOnceColon t = some (key, value))
    (hk : strToLower key ∉ recognizedKeys) (acc : SearchQuery × List String) :
    parseStep p acc t = (acc.1, acc.2 ++ [t]) := by
  simp only [recognizedKeys, List.mem_cons, List.not_mem_nil, or_false, not_or] at hk
  obtain ⟨h1, h2, h3, h4, h5, h6, h7, h8⟩ := hk
  simp [parseStep, h, h1, h2, h3, h4, h5, h6, h7, h8]

theorem keyFilterVals_cons_some {t key value : String}
    (h : splitOnceColon t = some (key, value)) (keys : List String) (ts : List String) :
    keyFilterVals keys (t :: ts) =
      (if keys.contains (strToLower key) then [value] else []) ++ keyFilterVals keys ts := by
  simp only [keyFilterVals, List.filterMap_cons, h]
  split <;> simp_all

theorem keyFilterVals_cons_none {t : String} (h : splitOnceColon t = none)
    (keys : List String) (ts : List String) :
    keyFilterVals keys (t :: ts) = keyFilterVals keys ts := by
  simp [keyFilterVals, List.filterMap_cons, h]

theorem isFilterTok_some {t key value : String}
    (h : splitOnceColon t = some (key, value)) :
    isFilterTok t = recognizedKeys.contains (strToLower key) := by
  simp [isFilterTok, h]

theorem isFilterTok_none {t : String} (h : splitOnceColon t = none) :
    isFilterTok t = false := by
  simp [isFilterTok, h]

theorem parseFold_spec (p : String → Option DateTimeUtc) (ts : List String) :
    ∀ (q0 : SearchQuery) (parts0 : List String),
    (ts.foldl (parseStep p) (q0, parts0)).2
      = parts0 ++ ts.filter (fun t => ¬ isFilterTok t) ∧
    (ts.foldl (parseStep p) (q0, parts0)).1.author
      = lastUpd ((keyFilterVals ["author"] ts).map some) q0.author ∧
    (ts.foldl (parseStep p) (q0, parts0)).1.lang
      = lastUpd (((keyFilterVals ["lang", "language"] ts).map Language.fromStr).map some)
          q0.lang ∧
    (ts.foldl (parseStep p) (q0, parts0)).1.after
      = lastUpd (((keyFilterVals ["after"] ts).filterMap p).map some) q0.after ∧
    (ts.foldl (parseStep p) (q0, parts0)).1.before
      = lastUpd (((keyFilterVals ["before"] ts).filterMap p).map some) q0.before ∧
    (ts.foldl (parseStep p) (q0, parts0)).1.file_pattern
      = lastUpd ((keyFilterVals ["file", "path"] ts).map some) q0.file_pattern ∧
    (ts.foldl (parseStep p) (q0, parts0)).1.limit
      = lastUpd ((keyFilterVals ["limit"] ts).filterMap parseUsize) q0.limit ∧
    (ts.foldl (parseStep p) (q0, parts0)).1.raw_query = q0.raw_query := by
  induction ts with
  | nil => intro q0 parts0; simp [keyFilterVals, lastUpd]
  | cons t ts ih =>
    intro q0 parts0
    rw [List.foldl_cons]
    rcases h : splitOnceColon t with _ | ⟨key, value⟩
    · rw [parseStep_split_none h]
      have H := ih q0 (parts0 ++ [t])
      simpa [keyFilterVals_cons_none h, isFilterTok_none h, List.filter_cons] using H
    · by_cases hk1 : strToLower key = "author"
      · rw [parseStep_author h hk1]
        have H := ih { q0 with author := some value } parts0
        simpa [keyFilterVals_cons_some h, isFilterTok_some h, hk1, recognizedKeys,
          List.filter_cons, lastUpd_cons] using H
      by_cases hk2 : strToLower key = "lang" ∨ strToLower key = "language"
      · rw [parseStep_lang h hk2]
        have H := ih { q0 with lang := some (Language.fromStr value) } parts0
        rcases hk2 with hk | hk <;>
          simpa [keyFilterVals_cons_some h, isFilterTok_some h, hk, recognizedKeys,
            List.filter_cons, lastUpd_cons] using H
      by_cases hk3 : strToLower key = "after"
      · rw [parseStep_after h hk3]
        rcases hp : p value with _ | dt
        · have H := ih q0 parts0
          simpa [keyFilterVals_cons_some h, isFilterTok_some h, hk3, recognizedKeys,
            List.filter_cons, hp, lastUpd_cons] using H
        · have H := ih { q0 with after := some dt } parts0
          simpa [keyFilterVals_cons_some h, isFilterTok_some h, hk3, recognizedKeys,
            List.filter_cons, hp, lastUpd_cons] using H
      by_cases hk4 : strToLower key = "before"
      · rw [parseStep_before h hk4]
        rcases hp : p value with _ | dt
        · have H := ih q0 parts0
          simpa [keyFilterVals_cons_some h, isFilterTok_some h, hk4, recognizedKeys,
            List.filter_cons, hp, lastUpd_cons] using H
        · have H := ih { q0 with before := some dt } parts0
          simpa [keyFilterVals_cons_some h, isFilterTok_some h, hk4, recognizedKeys,
            List.filter_cons, hp, lastUpd_cons] using H
      by_cases hk5 : strToLower key = "file" ∨ strToLower key = "path"
      · rw [parseStep_file h hk5]
        have H := ih { q0 with file_pattern := some value } parts0
        rcases hk5 with hk | hk <;>
          simpa [keyFilterVals_cons_some h, isFilterTok_some h, hk, recognizedKeys,
            List.filter_cons, lastUpd_cons] using H
      by_cases hk6 : strToLower key = "limit"
      · rw [parseStep_limit h hk6]
        rcases hp : parseUsize value with _ | l
        · have H := ih q0 parts0
          simpa [keyFilterVals_cons_some h, isFilterTok_some h, hk6, recognizedKeys,
            List.filter_cons, hp, lastUpd_cons] using H
        · have H := ih { q0 with limit := l } parts0
          simpa [keyFilterVals_cons_some h, isFilterTok_some h, hk6, recognizedKeys,
            List.filter_cons, hp, lastUpd_cons] using H
      · push_neg at hk2 hk5
        have hk : strToLower key ∉ recognizedKeys := by
          simp only [recognizedKeys, List.mem_cons, List.not_mem_nil, or_false, not_or]
          exact ⟨hk1, hk2.1, hk2.2, hk3, hk4, hk5.1, hk5.2, hk6⟩
        rw [parseStep_unknown h hk]
        have H := ih q0 (parts0 ++ [t])
        simpa [keyFilterVals_cons_some h, isFilterTok_some h, hk, hk1, hk2.1, hk2.2,
          hk3, hk4, hk5.1, hk5.2, hk6, List.filter_cons] using H

/-- C8 (amended): query parsing splits the input on whitespace; a key:value
token with a recognized key sets the corresponding filter — author, lang and
language, after and before only when the chrono parser accepts the value,
file and path, and limit only when the value parses as a Rust usize (zero
included), defaulting to 10 — with the last occurrence winning; every token
that is not a recognized key:value token, including unknown key:value
tokens kept verbatim, is concatenated in order into the free-text query. -/
theorem searchQuery_parse_spec (p : String → Option DateTimeUtc) (input : String) :
    (SearchQuery.parse p input).raw_query
      = joinSpace ((splitWhitespace input).filter (fun t => ¬ isFilterTok t)) ∧
    (SearchQuery.parse p input).author
      = (keyFilterVals ["author"] (splitWhitespace input)).getLast? ∧
    (SearchQuery.parse p input).lang
      = ((keyFilterVals ["lang", "language"] (splitWhitespace input)).map
          Language.fromStr).getLast? ∧
    (SearchQuery.parse p input).after
      = ((keyFilterVals ["after"] (splitWhitespace input)).filterMap p).getLast? ∧
    (SearchQuery.parse p input).before
      = ((keyFilterVals ["before"] (splitWhitespace input)).filterMap p).getLast? ∧
    (SearchQuery.parse p input).file_pattern
      = (keyFilterVals ["file", "path"] (splitWhitespace input)).getLast? ∧
    (SearchQuery.parse p input).limit
      = ((keyFilterVals ["limit"] (splitWhitespace input)).filterMap parseUsize).getLastD 10 := by
  obtain ⟨h1, h2, h3, h4, h5, h6, h7, h8⟩ :=
    parseFold_spec p (splitWhitespace input)
      { raw_query := "", author := none, lang := none, after := none,
        before := none, file_pattern := none, limit := 10 } []
  unfold SearchQuery.parse
  dsimp only
  refine ⟨?_, ?_, ?_, ?_, ?_, ?_, ?_⟩
  · rw [h1, List.nil_append]
  · rw [h2, lastUpd_map_some]
    simp
  · rw [h3, lastUpd_map_some]
    simp
  · rw [h4, lastUpd_map_some]
    simp
  · rw [h5, lastUpd_map_some]
    simp
  · rw [h6, lastUpd_map_some]
    simp
  · rw [h7, lastUpd_eq_getLastD]

/-- C8 counterexample: on the input "limit:0" the parser stores limit 0 —
the value 0 parses as a Rust usize even though it is not a positive integer,
so the parsed limit is not the claimed default of 10. -/
theorem searchQuery_parse_limit_zero :
    (SearchQuery.parse (fun _ => none) "limit:0").limit = 0 ∧ (0 : Nat) ≠ 10 := by
  constructor
  · rfl
  · decide

/-! ## C4 — idempotence of the keyed store writes -/

/-- C4: evaluation at the failing input. Re-putting a location whose
commit_hash is absent does not replace the keyed row: SQLite's UNIQUE index
treats NULL commit hashes as distinct, so INSERT OR REPLACE finds no
conflict and the same location appears twice. Chunk re-puts, embedding
re-puts, and location re-puts that do carry a commit hash replace their
keyed row as the claim states. -/
theorem putLocation_nullCommit_duplicates :
    putLocation (putLocation [] locNoCommit) locNoCommit = [locNoCommit, locNoCommit] ∧
    (∀ table c, putChunk (putChunk table c) c = putChunk table c) ∧
    (∀ table e, putEmbedding (putEmbedding table e) e = putEmbedding table e) ∧
    (∀ table l, l.commit_hash ≠ none →
      putLocation (putLocation table l) l = putLocation table l) := by
  refine ⟨by decide, fun table c => ?_, fun table e => ?_, fun table l hl => ?_⟩
  · unfold putChunk
    rw [List.filter_append]
    simp
  · unfold putEmbedding
    rw [List.filter_append]
    simp
  · unfold putLocation
    rw [List.filter_append]
    have hself : locationConflict l l = true := by
      rcases hc : l.commit_hash with _ | c
      · exact absurd hc hl
      · simp [locationConflict, hc]
    simp [hself]

/-! ## C5 — crate rollup: prefix rule is disjoint from the direct rule -/

/-- C5: an edge counted by the crate-level name-prefix rule is counted only
when no chunk in the index has symbol_name exactly equal to its
target_query; consequently the edge is not counted by the direct-symbol
rule, so no single edge is counted by both branches. -/
theorem prefixRule_disjoint_from_direct (s : Store) (sc : String) (m2 : ModuleRow)
    (e : EdgeRow) (h : countedByPrefix s sc m2 e = true) :
    (∀ c3 ∈ s.chunks, c3.symbol_name ≠ some e.target_query) ∧
    countedByDirect s sc e = false := by
  have hnone : (s.chunks.any fun c3 =>
      match c3.symbol_name with
      | some sym => decide (sym = e.target_query)
      | none => false) = false := by
    simp only [countedByPrefix, Bool.and_eq_true, Bool.not_eq_true'] at h
    exact h.2
  rw [List.any_eq_false] at hnone
  have hchunks : ∀ c3 ∈ s.chunks, c3.symbol_name ≠ some e.target_query := by
    intro c3 hc3 heq
    have := hnone c3 hc3
    rw [heq] at this
    simp at this
  refine ⟨hchunks, ?_⟩
  rw [countedByDirect, Bool.and_eq_false_iff]
  right
  rw [List.any_eq_false]
  intro c2 hc2
  rcases hsym : c2.symbol_name with _ | sym
  · simp [hsym]
  · have : sym ≠ e.target_query := by
      intro heq
      exact hchunks c2 hc2 (by rw [hsym, heq])
    simp [hsym, this]

/-- C5 witness: in the concrete rollup store, the prefix rule fires for the
edge to util_lib::helper, and the theorem yields that no chunk carries that
symbol and the direct rule does not count the edge. -/
theorem prefixRule_disjoint_witness :
    (∀ c3 ∈ rollupStore.chunks, c3.symbol_name ≠ some rollupEdge.target_query) ∧
    countedByDirect rollupStore "a" rollupEdge = false :=
  prefixRule_disjoint_from_direct rollupStore "a" crateB rollupEdge (by decide)

/-! ## C2 — reciprocal-rank fusion -/

theorem rrfGet_nil (h : String) : rrfGet [] h = 0 := rfl

theorem rrfGet_insert_same (m : List (String × ℚ)) (h : String) (s : ℚ) :
    rrfGet (rrfInsert m h s) h = rrfGet m h + s := by
  induction m with
  | nil => simp [rrfInsert, rrfGet]
  | cons p m ih =>
    by_cases hp : p.1 = h
    · simp [rrfInsert, rrfGet, hp]
    · rw [rrfInsert, if_neg hp, rrfGet, List.find?_cons_of_neg _ (by simp [hp]),
        rrfGet, List.find?_cons_of_neg _ (by simp [hp])]
      exact ih

theorem rrfGet_insert_other (m : List (String × ℚ)) {h h' : String} (s : ℚ)
    (hne : h' ≠ h) : rrfGet (rrfInsert m h s) h' = rrfGet m h' := by
  induction m with
  | nil => simp [rrfInsert, rrfGet, Ne.symm hne]
  | cons p m ih =>
    by_cases hp : p.1 = h
    · have hp' : ¬ p.1 = h' := by rw [hp]; exact Ne.symm hne
      rw [rrfInsert, if_pos hp, rrfGet, List.find?_cons_of_neg _ (by simp [hne, hp']),
        rrfGet, List.find?_cons_of_neg _ (by simp [hp'])]
    · by_cases hp' : p.1 = h'
      · rw [rrfInsert, if_neg hp, rrfGet, List.find?_cons_of_pos _ (by simp [hp']),
          rrfGet, List.find?_cons_of_pos _ (by simp [hp'])]
      · rw [rrfInsert, if_neg hp, rrfGet, List.find?_cons_of_neg _ (by simp [hp']),
          rrfGet, List.find?_cons_of_neg _ (by simp [hp'])]
        exact ih

theorem rrfGet_addEnum_not_mem (pairs : List (Nat × String)) (m : List (String × ℚ))
    {h : String} (hnm : ∀ p ∈ pairs, p.2 ≠ h) :
    rrfGet (rrfAddEnum m pairs) h = rrfGet m h := by
  induction pairs generalizing m with
  | nil => rfl
  | cons p pairs ih =>
    rw [rrfAddEnum, List.foldl_cons]
    have := ih (rrfInsert m p.2 (rrfWeight p.1)) (fun x hx => hnm x (List.mem_cons_of_mem _ hx))
    rw [rrfAddEnum] at this
    rw [this, rrfGet_insert_other]
    exact fun he => hnm p (List.mem_cons_self _ _) he.symm

theorem rrfGet_addEnum_from (hs : List String) (hnd : hs.Nodup) (h : String) :
    ∀ (i0 : Nat) (m : List (String × ℚ)),
    rrfGet (rrfAddEnum m (hs.enumFrom i0)) h = rrfGet m h + rrfContribFrom i0 hs h := by
  induction hs with
  | nil => intro i0 m; simp [rrfAddEnum, rrfContribFrom, List.findIdx?_nil]
  | cons x rest ih =>
    intro i0 m
    rw [List.enumFrom_cons, rrfAddEnum, List.foldl_cons]
    have hrest : rest.Nodup := (List.nodup_cons.mp hnd).2
    by_cases hx : x = h
    · have hnotin : h ∉ rest := hx ▸ (List.nodup_cons.mp hnd).1
      have hnm : ∀ p ∈ rest.enumFrom (i0 + 1), p.2 ≠ h := by
        intro p hp he
        have : p.2 ∈ (rest.enumFrom (i0 + 1)).map Prod.snd := List.mem_map_of_mem _ hp
        rw [List.enumFrom_map_snd] at this
        exact hnotin (he ▸ this)
      have htail := rrfGet_addEnum_not_mem (rest.enumFrom (i0 + 1))
        (rrfInsert m x (rrfWeight i0)) hnm
      rw [rrfAddEnum] at htail
      have hc : rrfContribFrom i0 (x :: rest) h = rrfWeight i0 := by
        rw [rrfContribFrom, List.findIdx?_cons, if_pos (by simp [hx])]
      rw [htail, hc, hx, rrfGet_insert_same]
    · have htail := ih hrest (i0 + 1) (rrfInsert m x (rrfWeight i0))
      rw [rrfAddEnum] at htail
      have hc : rrfContribFrom i0 (x :: rest) h = rrfContribFrom (i0 + 1) rest h := by
        rw [rrfContribFrom, List.findIdx?_cons, if_neg (by simp [hx]), rrfContribFrom]
      rw [htail, hc, rrfGet_insert_other m (rrfWeight i0) (fun he => hx he.symm)]

theorem rrfGet_addList (m : List (String × ℚ)) (hs : List String) (hnd : hs.Nodup)
    (h : String) : rrfGet (rrfAddList m hs) h = rrfGet m h + rrfContrib hs h := by
  rw [rrfAddList, rrfContrib, List.enum]
  exact rrfGet_addEnum_from hs hnd h 0 m

/-- C2: in the fusion stage, every candidate's fused score is the sum over
the two ranked lists of 1/(60 + rank) at its 1-indexed rank there (zero when
absent); two identical candidate lists contribute equal score, doubling each
candidate's single-list contribution; and the per-list weight is strictly
monotone-decreasing in rank. -/
theorem rrf_fusion_spec (vec lex : List String) (hv : vec.Nodup) (hl : lex.Nodup) :
    (∀ h, rrfGet (rrfScores vec lex) h = rrfContrib vec h + rrfContrib lex h) ∧
    (vec = lex → ∀ h, rrfGet (rrfScores vec lex) h = 2 * rrfContrib vec h) ∧
    (∀ i j : Nat, i < j → rrfWeight j < rrfWeight i) := by
  have hmain : ∀ h, rrfGet (rrfScores vec lex) h = rrfContrib vec h + rrfContrib lex h := by
    intro h
    rw [rrfScores, rrfGet_addList _ lex hl, rrfGet_addList _ vec hv, rrfGet_nil, zero_add]
  refine ⟨hmain, fun heq h => ?_, fun i j hij => ?_⟩
  · rw [hmain h, ← heq]
    ring
  · rw [rrfWeight, rrfWeight]
    have h1 : (0 : ℚ) < 60 + ((i : ℚ) + 1) := by positivity
    have h2 : (60 + ((i : ℚ) + 1)) < 60 + ((j : ℚ) + 1) := by
      have : (i : ℚ) < (j : ℚ) := by exact_mod_cast hij
      linarith
    exact one_div_lt_one_div_of_lt h1 h2

/-- C2 witness: the fusion properties discharged at the concrete duplicate-
free ranked lists [a, b] and [b]. -/
theorem rrf_fusion_spec_witness :
    (∀ h, rrfGet (rrfScores ["a", "b"] ["b"]) h
      = rrfContrib ["a", "b"] h + rrfContrib ["b"] h) ∧
    (["a", "b"] = ["b"] →
      ∀ h, rrfGet (rrfScores ["a", "b"] ["b"]) h = 2 * rrfContrib ["a", "b"] h) ∧
    (∀ i j : Nat, i < j → rrfWeight j < rrfWeight i) :=
  rrf_fusion_spec ["a", "b"] ["b"] (by decide) (by decide)

/-! ## Shared list lemmas about the sort and the fusion keys -/

theorem mem_insertScoreDesc {y x : String × ℚ} {l : List (String × ℚ)} :
    y ∈ insertScoreDesc x l ↔ y = x ∨ y ∈ l := by
  induction l with
  | nil => simp [insertScoreDesc]
  | cons z zs ih =>
    rw [insertScoreDesc]
    by_cases hz : z.2 ≤ x.2
    · simp only [if_pos hz, List.mem_cons]
    · simp only [if_neg hz, List.mem_cons, ih]
      tauto

theorem mem_sortByScoreDesc {y : String × ℚ} {l : List (String × ℚ)} :
    y ∈ sortByScoreDesc l ↔ y ∈ l := by
  induction l with
  | nil => rfl
  | cons x xs ih =>
    rw [sortByScoreDesc, mem_insertScoreDesc, List.mem_cons, ih]

theorem key_mem_rrfInsert {k h : String} {s : ℚ} {m : List (String × ℚ)}
    (hk : k ∈ (rrfInsert m h s).map Prod.fst) : k = h ∨ k ∈ m.map Prod.fst := by
  induction m with
  | nil => simpa [rrfInsert] using hk
  | cons q m ih =>
    by_cases hq : q.1 = h
    · rw [rrfInsert, if_pos hq] at hk
      rcases List.mem_map.mp hk with ⟨p, hp, hpk⟩
      rcases List.mem_cons.mp hp with hp | hp
      · left; rw [← hpk, hp, hq]
      · right
        exact List.mem_map.mpr ⟨p, List.mem_cons_of_mem _ hp, hpk⟩
    · rw [rrfInsert, if_neg hq] at hk
      rcases List.mem_map.mp hk with ⟨p, hp, hpk⟩
      rcases List.mem_cons.mp hp with hp | hp
      · right
        exact List.mem_map.mpr ⟨p, by rw [hp]; exact List.mem_cons_self _ _, hpk⟩
      · rcases ih (List.mem_map.mpr ⟨p, hp, hpk⟩) with hh | hh
        · exact Or.inl hh
        · rcases List.mem_map.mp hh with ⟨p', hp', hpk'⟩
          exact Or.inr (List.mem_map.mpr ⟨p', List.mem_cons_of_mem _ hp', hpk'⟩)

theorem key_mem_rrfAddEnum {k : String} {pairs : List (Nat × String)} :
    ∀ {m : List (String × ℚ)}, k ∈ (rrfAddEnum m pairs).map Prod.fst →
      k ∈ pairs.map Prod.snd ∨ k ∈ m.map Prod.fst := by
  induction pairs with
  | nil => intro m hk; exact Or.inr hk
  | cons pr pairs ih =>
    intro m hk
    rw [rrfAddEnum, List.foldl_cons] at hk
    rcases ih hk with hh | hh
    · exact Or.inl (List.mem_cons_of_mem _ hh)
    · rcases key_mem_rrfInsert hh with hh | hh
      · exact Or.inl (List.mem_cons.mpr (Or.inl hh))
      · exact Or.inr hh

theorem key_mem_rrfScores {k : String} {vh lh : List String}
    (hk : k ∈ (rrfScores vh lh).map Prod.fst) : k ∈ vh ∨ k ∈ lh := by
  rw [rrfScores, rrfAddList, rrfAddList] at hk
  rcases key_mem_rrfAddEnum hk with hh | hh
  · right
    rwa [List.enum, List.enumFrom_map_snd] at hh
  · rcases key_mem_rrfAddEnum hh with hh | hh
    · left
      rwa [List.enum, List.enumFrom_map_snd] at hh
    · simp at hh

theorem mem_vectorResults_inFilter {sqrtFn : ℚ → ℚ} {F : Option (List String)}
    {s : Store} {emb : Embedding} {p : String × ℚ}
    (hp : p ∈ vectorResults sqrtFn F s emb) : inFilter F p.1 = true :=
  (List.mem_filter.mp hp).2

theorem mem_lexicalResults_inFilter {F : Option (List String)} {raw : String}
    {rows : List (String × ℚ)} {p : String × ℚ}
    (hp : p ∈ lexicalResults F raw rows) : inFilter F p.1 = true := by
  rw [lexicalResults] at hp
  split at hp
  · exact (List.mem_filter.mp hp).2
  · cases hp

/-! ## C3 — metadata filter stage -/

/-- C3 (amended): if no metadata filter is set the candidate set is absent
(no restriction: F is the universe); if one is set, a hash belongs to F
exactly when some chunk carries it and some row of the left join of that
chunk with each of its locations (a NULL row when it has none) passes all
set filters conjunctively; and every hash the hybrid query returns then lies
in F — both the vector and the lexical lists having been restricted to F. -/
theorem candidateFilter_spec (s : Store) (q : SearchQuery) (sqrtFn : ℚ → ℚ)
    (ftsRows : List (String × ℚ)) (shuffle : List (String × ℚ) → List (String × ℚ))
    (hshuffle : ∀ l, (shuffle l).Perm l) :
    (anyFilterSet q = false → candidateHashes s q = none) ∧
    (anyFilterSet q = true → ∀ hs, candidateHashes s q = some hs →
      ∀ h, h ∈ hs ↔ ∃ c ∈ s.chunks, c.content_hash = h ∧
        ∃ l ∈ chunkLocRows s c, rowPasses q c l = true) ∧
    (∀ emb p, p ∈ queryFn sqrtFn ftsRows shuffle s q emb →
      inFilter (candidateHashes s q) p.1 = true) := by
  refine ⟨fun hno => ?_, fun hyes hs hhs h => ?_, fun emb p hp => ?_⟩
  · rw [candidateHashes, if_neg (by simp [hno])]
  · rw [candidateHashes, if_pos hyes] at hhs
    cases hhs
    simp only [List.mem_map, List.mem_filter, List.any_eq_true]
    constructor
    · rintro ⟨c, ⟨hc, hpass⟩, hch⟩
      exact ⟨c, hc, hch, hpass⟩
    · rintro ⟨c, hc, hch, l, hl, hpass⟩
      exact ⟨c, ⟨hc, ⟨l, hl, hpass⟩⟩, hch⟩
  · simp only [queryFn] at hp
    have h1 := List.mem_of_mem_take hp
    rw [mem_sortByScoreDesc] at h1
    have h2 := (hshuffle _).mem_iff.mp h1
    have h3 := key_mem_rrfScores (List.mem_map_of_mem Prod.fst h2)
    rcases h3 with h3 | h3
    · rcases List.mem_map.mp h3 with ⟨p', hp', hpk⟩
      rw [mem_sortByScoreDesc] at hp'
      rw [← hpk]
      exact mem_vectorResults_inFilter hp'
    · rcases List.mem_map.mp h3 with ⟨p', hp', hpk⟩
      rw [← hpk]
      exact mem_lexicalResults_inFilter hp'

/-- C3 witness: in the two-location store under author:alice, the candidate
set is computed (a filter is set), h1 belongs to it through its old
location, and the full query output is contained in it. -/
theorem candidateFilter_spec_witness :
    (anyFilterSet filterQuery = false → candidateHashes filterStore filterQuery = none) ∧
    (anyFilterSet filterQuery = true → ∀ hs, candidateHashes filterStore filterQuery = some hs →
      ∀ h, h ∈ hs ↔ ∃ c ∈ filterStore.chunks, c.content_hash = h ∧
        ∃ l ∈ chunkLocRows filterStore c, rowPasses filterQuery c l = true) ∧
    (∀ emb p, p ∈ queryFn (fun x => x) [] id filterStore filterQuery emb →
      inFilter (candidateHashes filterStore filterQuery) p.1 = true) :=
  candidateFilter_spec filterStore filterQuery (fun x => x) [] id (fun l => List.Perm.refl l)

/-- C3 counterexample: the code's candidate set joins every location, not
only the most-recent one. In the concrete store the chunk's newest location
is authored by bob, so the spec-side most-recent-location set under
author:alice is empty, yet the code's set contains h1 via the older
location. -/
theorem candidateSet_not_most_recent :
    candidateHashes filterStore filterQuery = some ["h1"] ∧
    specCandidateHashes filterStore filterQuery = some [] := by
  constructor
  · decide
  · decide

/-! ## C1 — final ordering of the hybrid query -/

theorem sorted_insertScoreDesc {x : String × ℚ} {l : List (String × ℚ)}
    (h : l.Sorted fun a b => b.2 ≤ a.2) :
    (insertScoreDesc x l).Sorted fun a b => b.2 ≤ a.2 := by
  induction l with
  | nil => simp [insertScoreDesc]
  | cons y ys ih =>
    rw [List.sorted_cons] at h
    rw [insertScoreDesc]
    by_cases hy : y.2 ≤ x.2
    · rw [if_pos hy, List.sorted_cons]
      refine ⟨fun b hb => ?_, List.sorted_cons.mpr h⟩
      rcases List.mem_cons.mp hb with hb | hb
      · rw [hb]; exact hy
      · exact le_trans (h.1 b hb) hy
    · rw [if_neg hy, List.sorted_cons]
      refine ⟨fun b hb => ?_, ih h.2⟩
      rcases mem_insertScoreDesc.mp hb with hb | hb
      · rw [hb]; exact le_of_lt (lt_of_not_le hy)
      · exact h.1 b hb

theorem sorted_sortByScoreDesc (l : List (String × ℚ)) :
    (sortByScoreDesc l).Sorted fun a b => b.2 ≤ a.2 := by
  induction l with
  | nil => simp [sortByScoreDesc]
  | cons x xs ih => exact sorted_insertScoreDesc ih

/-- C1 (amended): for every query, query embedding and hash-map iteration
order, the hybrid query engine returns its fused results sorted by fused
score descending and truncated to q.limit. Ties are NOT broken by content
hash: the stable final sort leaves tied results in hash-map iteration
order, so the order of tied results is not determined by the inputs. -/
theorem query_sorted_truncated (sqrtFn : ℚ → ℚ) (ftsRows : List (String × ℚ))
    (shuffle : List (String × ℚ) → List (String × ℚ)) (s : Store)
    (q : SearchQuery) (emb : Embedding) :
    (queryFn sqrtFn ftsRows shuffle s q emb).Sorted (fun a b => b.2 ≤ a.2) ∧
    (queryFn sqrtFn ftsRows shuffle s q emb).length ≤ q.limit := by
  constructor
  · simp only [queryFn]
    exact List.Pairwise.sublist (List.take_sublist _ _) (sorted_sortByScoreDesc _)
  · simp only [queryFn]
    rw [List.length_take]
    exact Nat.min_le_left _ _

/-- C1 counterexample: one candidate reaches the fusion through the vector
list under the larger hash zzzz, the other through the lexical list under
the smaller hash aaaa, with equal fused scores. With the identity hash-map
order the engine returns zzzz first — not hash-ascending — and with the
reversed hash-map order it returns aaaa first, so the output order is not
determined by the inputs. -/
theorem query_order_not_hash_tiebreak :
    (queryFn (fun x => x) tieFts id tieStore tieQuery tieEmb).map Prod.fst
      = ["zzzz", "aaaa"] ∧
    (queryFn (fun x => x) tieFts List.reverse tieStore tieQuery tieEmb).map Prod.fst
      = ["aaaa", "zzzz"] ∧
    (queryFn (fun x => x) tieFts id tieStore tieQuery tieEmb).map Prod.snd
      = [1 / 61, 1 / 61] ∧
    (∀ l : List (String × ℚ), (id l).Perm l) ∧
    (∀ l : List (String × ℚ), l.reverse.Perm l) ∧
    ("aaaa" : String) < "zzzz" := by
  have hcos : cosineSimilarity (fun x => x) tieEmb
      { vector := [1], model_id := "", dimensions := tieEmb.dimensions } = 1 := by
    rw [cosineSimilarity]
    norm_num [tieEmb, dotZip, sumSquares]
  have hw : rrfWeight 0 = 1 / 61 := by
    rw [rrfWeight]
    norm_num
  refine ⟨?_, ?_, ?_, fun l => List.Perm.refl l, fun l => List.reverse_perm l, ?_⟩
  · simp only [queryFn, tieStore, tieQuery, tieFts, candidateHashes, anyFilterSet,
      vectorResults, lexicalResults, inFilter, List.map_cons, List.map_nil,
      List.filter_cons, List.filter_nil, List.take_nil, hcos]
    norm_num [sortByScoreDesc, insertScoreDesc, rrfScores, rrfAddList, rrfAddEnum,
      rrfInsert, List.enum, List.enumFrom, hw]
  · simp only [queryFn, tieStore, tieQuery, tieFts, candidateHashes, anyFilterSet,
      vectorResults, lexicalResults, inFilter, List.map_cons, List.map_nil,
      List.filter_cons, List.filter_nil, List.take_nil, hcos]
    norm_num [sortByScoreDesc, insertScoreDesc, rrfScores, rrfAddList, rrfAddEnum,
      rrfInsert, List.enum, List.enumFrom, hw]
  · simp only [queryFn, tieStore, tieQuery, tieFts, candidateHashes, anyFilterSet,
      vectorResults, lexicalResults, inFilter, List.map_cons, List.map_nil,
      List.filter_cons, List.filter_nil, List.take_nil, hcos]
    norm_num [sortByScoreDesc, insertScoreDesc, rrfScores, rrfAddList, rrfAddEnum,
      rrfInsert, List.enum, List.enumFrom, hw]
  · rw [String.lt_iff_toList_lt]
    decide

/-! ## C6 — module-cycle detection -/

theorem pathChain_nil (adjList : List (String × List String)) :
    pathChain adjList [] := by
  intro i a b ha _
  simp at ha

theorem getElem?_singleton_pos {α : Type} {x : α} {n : Nat} (hn : 1 ≤ n) :
    ([x] : List α)[n]? = none :=
  List.getElem?_eq_none (by simpa using hn)

theorem pathChain_concat {adjList : List (String × List String)} {l : List String}
    {u : String} (h : pathChain adjList l)
    (hlast : l = [] ∨ ∃ w, l.getLast? = some w ∧ u ∈ adjDeps adjList w) :
    pathChain adjList (l ++ [u]) := by
  intro i a b ha hb
  rw [List.getElem?_append] at ha hb
  by_cases hi1 : i + 1 < l.length
  · rw [if_pos (by omega)] at ha
    rw [if_pos hi1] at hb
    exact h i a b ha hb
  · by_cases hi : i < l.length
    · rw [if_pos hi] at ha
      rw [if_neg hi1] at hb
      have hz : i + 1 - l.length = 0 := by omega
      rw [hz] at hb
      simp only [List.getElem?_cons_zero, Option.some.injEq] at hb
      rcases hlast with hnil | ⟨w, hw, hadj⟩
      · subst hnil
        simp at hi
      · have hieq : i = l.length - 1 := by omega
        rw [List.getLast?_eq_getElem?] at hw
        rw [hieq] at ha
        rw [ha] at hw
        have haw : a = w := Option.some_injective _ hw
        rw [haw, ← hb]
        exact hadj
    · rw [if_neg hi1] at hb
      rw [getElem?_singleton_pos (by omega)] at hb
      cases hb

theorem pathChain_of_concat {adjList : List (String × List String)} {l : List String}
    {u : String} (h : pathChain adjList (l ++ [u])) : pathChain adjList l := by
  intro i a b ha hb
  have hi1 : i + 1 < l.length := by
    by_contra hc
    rw [List.getElem?_eq_none (by omega)] at hb
    cases hb
  apply h i a b
  · rw [List.getElem?_append, if_pos (by omega)]
    exact ha
  · rw [List.getElem?_append, if_pos hi1]
    exact hb

theorem goodCycle_emit {adjList : List (String × List String)} {path : List String}
    {u v : String} {idx : Nat} (hidx : idx < path.length)
    (hv : path[idx]? = some v) (hchain : pathChain adjList path)
    (hlast : path.getLast? = some u) (hadj : v ∈ adjDeps adjList u) :
    goodCycle adjList (path.drop idx ++ [v]) := by
  have hdl : (path.drop idx).length = path.length - idx := List.length_drop idx path
  refine ⟨?_, ?_, ?_⟩
  · rw [List.length_append, hdl]
    simp
    omega
  · rw [List.head?_eq_getElem?, List.getLast?_concat, List.getElem?_append,
      if_pos (by rw [hdl]; omega), List.getElem?_drop]
    simpa using hv
  · intro i a b ha hb
    rw [List.getElem?_append] at ha hb
    by_cases hi1 : i + 1 < (path.drop idx).length
    · rw [if_pos (by omega), List.getElem?_drop] at ha
      rw [if_pos hi1, List.getElem?_drop] at hb
      have : idx + (i + 1) = (idx + i) + 1 := by omega
      rw [this] at hb
      exact hchain (idx + i) a b ha hb
    · by_cases hi : i < (path.drop idx).length
      · rw [if_pos hi, List.getElem?_drop] at ha
        rw [if_neg hi1] at hb
        have hz : i + 1 - (path.drop idx).length = 0 := by omega
        rw [hz] at hb
        simp only [List.getElem?_cons_zero, Option.some.injEq] at hb
        have hieq : idx + i = path.length - 1 := by omega
        rw [List.getLast?_eq_getElem?] at hlast
        rw [hieq] at ha
        rw [ha] at hlast
        have hau : a = u := Option.some_injective _ hlast
        rw [hau, ← hb]
        exact hadj
      · rw [if_neg hi1] at hb
        rw [getElem?_singleton_pos (by omega)] at hb
        cases hb

theorem processNeighbors_spec (adjList : List (String × List String))
    (f : String → DfsState → DfsState) (u : String)
    (Hf : ∀ v st', dfsInv adjList st' →
      (st'.path = [] ∨ ∃ w, st'.path.getLast? = some w ∧ v ∈ adjDeps adjList w) →
      v ∉ st'.visited →
      dfsInv adjList (f v st') ∧ (f v st').path = st'.path ∧
        (f v st').onStack = st'.onStack ∧ st'.visited ⊆ (f v st').visited) :
    ∀ (ns : List String) (st : DfsState), dfsInv adjList st →
      st.path.getLast? = some u → (∀ v ∈ ns, v ∈ adjDeps adjList u) →
      dfsInv adjList (processNeighbors f st ns) ∧
        (processNeighbors f st ns).path = st.path ∧
        (processNeighbors f st ns).onStack = st.onStack ∧
        st.visited ⊆ (processNeighbors f st ns).visited := by
  intro ns
  induction ns with
  | nil =>
    intro st hInv hlast hns
    exact ⟨hInv, rfl, rfl, fun x hx => hx⟩
  | cons v vs ih =>
    intro st hInv hlast hns
    rw [processNeighbors]
    rcases hos : lookupOS st.onStack v with _ | idx
    · by_cases hvis : v ∈ st.visited
      · simp only [hos, if_pos hvis]
        exact ih st hInv hlast fun x hx => hns x (List.mem_cons_of_mem _ hx)
      · simp only [hos, if_neg hvis]
        obtain ⟨hInv', hpath', hos', hvis'⟩ := Hf v st hInv
          (Or.inr ⟨u, hlast, hns v (List.mem_cons_self _ _)⟩) hvis
        obtain ⟨hI, hP, hO, hV⟩ := ih (f v st) hInv' (by rw [hpath']; exact hlast)
          fun x hx => hns x (List.mem_cons_of_mem _ hx)
        exact ⟨hI, by rw [hP, hpath'], by rw [hO, hos'],
          fun x hx => hV (hvis' hx)⟩
    · simp only [hos]
      rw [lookupOS] at hos
      rcases Option.map_eq_some'.mp hos with ⟨p, hfind, hp2⟩
      have hpmem := List.mem_of_find?_eq_some hfind
      have hpv : p.1 = v := by simpa using List.find?_some hfind
      obtain ⟨hlt, hget⟩ := hInv.1 p hpmem
      have hInvC : dfsInv adjList
          { st with cycles := st.cycles ++ [st.path.drop idx ++ [v]] } := by
        refine ⟨hInv.1, hInv.2.1, hInv.2.2.1, ?_⟩
        intro c hc
        rcases List.mem_append.mp hc with hc | hc
        · exact hInv.2.2.2 c hc
        · rw [List.mem_singleton.mp hc]
          exact goodCycle_emit (hp2 ▸ hlt) (by rw [← hp2, hget, hpv])
            hInv.2.1 hlast (hpv ▸ (hns v (List.mem_cons_self _ _)))
      exact ih _ hInvC hlast fun x hx => hns x (List.mem_cons_of_mem _ hx)

theorem dfsVisit_spec (adjList : List (String × List String)) :
    ∀ (fuel : Nat) (u : String) (st : DfsState), dfsInv adjList st →
      (st.path = [] ∨ ∃ w, st.path.getLast? = some w ∧ u ∈ adjDeps adjList w) →
      u ∉ st.visited →
      dfsInv adjList (dfsVisit adjList fuel u st) ∧
        (dfsVisit adjList fuel u st).path = st.path ∧
        (dfsVisit adjList fuel u st).onStack = st.onStack ∧
        st.visited ⊆ (dfsVisit adjList fuel u st).visited := by
  intro fuel
  induction fuel with
  | zero =>
    intro u st hInv _ _
    exact ⟨hInv, rfl, rfl, fun x hx => hx⟩
  | succ fuel ih =>
    intro u st hInv hpre hvis
    rw [dfsVisit]
    simp only
    have hInv1 : dfsInv adjList
        { visited := u :: st.visited, onStack := (u, st.path.length) :: st.onStack,
          path := st.path ++ [u], cycles := st.cycles } := by
      refine ⟨?_, pathChain_concat hInv.2.1 hpre, ?_, hInv.2.2.2⟩
      · intro p hp
        rcases List.mem_cons.mp hp with hp | hp
        · rw [hp]
          refine ⟨by simp, List.getElem?_concat_length _ _⟩
        · obtain ⟨h1, h2⟩ := hInv.1 p hp
          refine ⟨by simp; omega, ?_⟩
          rw [List.getElem?_append, if_pos h1]
          exact h2
      · intro p hp
        rcases List.mem_cons.mp hp with hp | hp
        · rw [hp]
          exact List.mem_cons_self _ _
        · exact List.mem_cons_of_mem _ (hInv.2.2.1 p hp)
    obtain ⟨hInv2, hpath2, hos2, hvis2⟩ := processNeighbors_spec adjList
      (dfsVisit adjList fuel) u ih (adjDeps adjList u)
      { visited := u :: st.visited, onStack := (u, st.path.length) :: st.onStack,
        path := st.path ++ [u], cycles := st.cycles }
      hInv1 (List.getLast?_concat _) (fun v hv => hv)
    have hkeys : ∀ p ∈ st.onStack, p.1 ≠ u := fun p hp he =>
      hvis (he ▸ hInv.2.2.1 p hp)
    have hfilter :
        ((processNeighbors (dfsVisit adjList fuel)
          { visited := u :: st.visited, onStack := (u, st.path.length) :: st.onStack,
            path := st.path ++ [u], cycles := st.cycles }
          (adjDeps adjList u)).onStack.filter fun p => p.1 ≠ u) = st.onStack := by
      rw [hos2]
      have h1 : (((u, st.path.length) :: st.onStack).filter fun p => p.1 ≠ u)
          = st.onStack.filter fun p => p.1 ≠ u := by
        simp [List.filter_cons]
      rw [h1]
      exact List.filter_eq_self.mpr fun p hp => by simpa using hkeys p hp
    have hdrop :
        (processNeighbors (dfsVisit adjList fuel)
          { visited := u :: st.visited, onStack := (u, st.path.length) :: st.onStack,
            path := st.path ++ [u], cycles := st.cycles }
          (adjDeps adjList u)).path.dropLast = st.path := by
      rw [hpath2]
      exact List.dropLast_concat
    refine ⟨⟨?_, ?_, ?_, ?_⟩, hdrop, hfilter, ?_⟩
    · intro p hp
      rw [hfilter] at hp
      rw [hdrop]
      exact hInv.1 p hp
    · rw [hdrop]
      exact hInv.2.1
    · intro p hp
      rw [hfilter] at hp
      exact hvis2 (List.mem_cons_of_mem _ (hInv.2.2.1 p hp))
    · exact hInv2.2.2.2
    · exact fun x hx => hvis2 (List.mem_cons_of_mem _ hx)

theorem foldDfs_spec (adjList : List (String × List String)) (fuel : Nat) :
    ∀ (keys : List String) (st : DfsState), dfsInv adjList st →
      st.path = [] → st.onStack = [] →
      dfsInv adjList (keys.foldl
        (fun st k => if k ∈ st.visited then st else dfsVisit adjList fuel k st) st) ∧
      (keys.foldl
        (fun st k => if k ∈ st.visited then st else dfsVisit adjList fuel k st) st).path
        = [] ∧
      (keys.foldl
        (fun st k => if k ∈ st.visited then st else dfsVisit adjList fuel k st) st).onStack
        = [] := by
  intro keys
  induction keys with
  | nil =>
    intro st hInv hpath hos
    exact ⟨hInv, hpath, hos⟩
  | cons k ks ih =>
    intro st hInv hpath hos
    rw [List.foldl_cons]
    by_cases hk : k ∈ st.visited
    · rw [if_pos hk]
      exact ih st hInv hpath hos
    · rw [if_neg hk]
      obtain ⟨hInv', hpath', hos', _⟩ :=
        dfsVisit_spec adjList fuel k st hInv (Or.inl hpath) hk
      exact ih _ hInv' (by rw [hpath', hpath]) (by rw [hos', hos])

/-- C6: every cycle reported by module-cycle detection over a module
adjacency is a nonempty list whose last element repeats its first, and each
successive element (the closing pair included) is a dependency of its
predecessor in the adjacency. -/
theorem findModuleCycles_spec (adjList : List (String × List String))
    (cyc : List String) (hc : cyc ∈ findModuleCycles adjList) :
    2 ≤ cyc.length ∧ cyc.head? = cyc.getLast? ∧
    ∀ i a b, cyc[i]? = some a → cyc[i + 1]? = some b → b ∈ adjDeps adjList a := by
  simp only [findModuleCycles] at hc
  have hInit : dfsInv adjList { visited := [], onStack := [], path := [], cycles := [] } := by
    refine ⟨?_, pathChain_nil adjList, ?_, ?_⟩ <;> intro p hp <;> cases hp
  obtain ⟨hInv, _, _⟩ := foldDfs_spec adjList
    ((adjList.map Prod.fst ++ adjList.flatMap Prod.snd).length + 1)
    (adjList.map Prod.fst)
    { visited := [], onStack := [], path := [], cycles := [] } hInit rfl rfl
  exact hInv.2.2.2 cyc hc

/-! ## C7 — dependency-tree traversal -/

theorem renderChildren_const
    (f : String → String → Bool → List String × String → Option (List String × String))
    (hf : ∀ d p il st, f d p il st = some st) :
    ∀ (ds : List String) (cp : String) (len i : Nat) (st : List String × String),
      renderChildren f cp len i ds st = some st := by
  intro ds
  induction ds with
  | nil => intro cp len i st; rfl
  | cons d ds ih =>
    intro cp len i st
    rw [renderChildren, hf]
    exact ih cp len (i + 1) st

theorem renderChildren_mono
    (f : String → String → Bool → List String × String → Option (List String × String))
    (hm : ∀ d p il st st', f d p il st = some st' → st.1 ⊆ st'.1) :
    ∀ (ds : List String) (cp : String) (len i : Nat) (st st' : List String × String),
      renderChildren f cp len i ds st = some st' → st.1 ⊆ st'.1 := by
  intro ds
  induction ds with
  | nil =>
    intro cp len i st st' h
    cases h
    exact fun x hx => hx
  | cons d ds ih =>
    intro cp len i st st' h
    rw [renderChildren] at h
    rcases hf : f d cp (decide (i = len - 1)) st with _ | st1
    · rw [hf] at h
      cases h
    · rw [hf] at h
      exact (hm d cp _ st st1 hf).trans (ih cp len (i + 1) st1 st' h)

theorem renderRec_mono (s : Store) :
    ∀ (fuel : Nat) (sym pfx : String) (il : Bool) (cd md : Nat)
      (st st' : List String × String),
      renderRec s fuel sym pfx il cd md st = some st' → st.1 ⊆ st'.1 := by
  intro fuel
  induction fuel with
  | zero =>
    intro sym pfx il cd md st st' h
    cases h
  | succ fuel ih =>
    intro sym pfx il cd md st st' h
    obtain ⟨visited, output⟩ := st
    rw [renderRec] at h
    by_cases h1 : cd > md
    · rw [if_pos h1] at h
      cases h
      exact fun x hx => hx
    · rw [if_neg h1] at h
      simp only at h
      by_cases h2 : sym ∈ visited
      · rw [if_pos h2] at h
        cases h
        exact fun x hx => hx
      · rw [if_neg h2] at h
        have hsub := renderChildren_mono _
          (fun d p il st st' hcall => ih d p il (cd + 1) md st st' hcall)
          (symbolDeps s sym) _ (symbolDeps s sym).length 0 _ st' h
        exact fun x hx => hsub (List.mem_cons_of_mem _ hx)

theorem renderMeasure_mono (s : Store) {v v' : List String} (hsub : v ⊆ v') :
    renderMeasure s v' ≤ renderMeasure s v := by
  apply Finset.card_le_card
  apply Finset.sdiff_subset_sdiff (Finset.Subset.refl _)
  intro x hx
  rw [List.mem_toFinset] at hx ⊢
  exact hsub hx

theorem renderMeasure_strict (s : Store) {v : List String} {sym : String}
    (hmem : sym ∈ allTargets s) (hnot : sym ∉ v) :
    renderMeasure s (sym :: v) < renderMeasure s v := by
  have h1 : (allTargets s).toFinset \ (sym :: v).toFinset
      ⊆ (allTargets s).toFinset \ v.toFinset := by
    apply Finset.sdiff_subset_sdiff (Finset.Subset.refl _)
    rw [List.toFinset_cons]
    exact Finset.subset_insert _ _
  have h2 : sym ∈ (allTargets s).toFinset \ v.toFinset := by
    simp [hmem, hnot]
  have h3 : sym ∉ (allTargets s).toFinset \ (sym :: v).toFinset := by
    simp
  exact Finset.card_lt_card ((Finset.ssubset_iff_of_subset h1).mpr ⟨sym, h2, h3⟩)

theorem mem_insertStrAsc {y x : String} {l : List String} :
    y ∈ insertStrAsc x l ↔ y = x ∨ y ∈ l := by
  induction l with
  | nil => simp [insertStrAsc]
  | cons z zs ih =>
    rw [insertStrAsc]
    by_cases hz : x ≤ z
    · simp only [if_pos hz, List.mem_cons]
    · simp only [if_neg hz, List.mem_cons, ih]
      tauto

theorem mem_sortStrings {y : String} {l : List String} :
    y ∈ sortStrings l ↔ y ∈ l := by
  induction l with
  | nil => rfl
  | cons x xs ih => rw [sortStrings, mem_insertStrAsc, List.mem_cons, ih]

theorem dedupAdj_subset : ∀ l : List String, dedupAdj l ⊆ l
  | [] => by rw [dedupAdj]; exact fun x hx => hx
  | [x] => by rw [dedupAdj]; exact fun x hx => hx
  | x :: y :: rest => by
    rw [dedupAdj]
    by_cases h : x = y
    · rw [if_pos h]
      exact (dedupAdj_subset (y :: rest)).trans (List.subset_cons_self _ _)
    · rw [if_neg h]
      exact List.cons_subset_cons x (dedupAdj_subset (y :: rest))

theorem symbolDeps_subset_targets (s : Store) (sym : String) :
    ∀ d ∈ symbolDeps s sym, d ∈ allTargets s := by
  intro d hd
  rw [symbolDeps] at hd
  have hd1 := dedupAdj_subset _ hd
  rw [mem_sortStrings] at hd1
  rcases List.mem_flatMap.mp hd1 with ⟨c, _, hdc⟩
  rcases List.mem_map.mp hdc with ⟨e, he, hde⟩
  exact List.mem_map.mpr ⟨e, (List.mem_filter.mp he).1, hde⟩

theorem renderChildren_isSome (s : Store) (B : Nat)
    (f : String → String → Bool → List String × String → Option (List String × String))
    (hsome : ∀ d p il st, d ∈ allTargets s → renderMeasure s st.1 + 2 ≤ B →
      (f d p il st).isSome)
    (hm : ∀ d p il st st', f d p il st = some st' → st.1 ⊆ st'.1) :
    ∀ (ds : List String) (cp : String) (len i : Nat) (st : List String × String),
      (∀ d ∈ ds, d ∈ allTargets s) → renderMeasure s st.1 + 2 ≤ B →
      (renderChildren f cp len i ds st).isSome := by
  intro ds
  induction ds with
  | nil => intro cp len i st _ _; rfl
  | cons d ds ih =>
    intro cp len i st hds hb
    rw [renderChildren]
    have hs := hsome d cp (decide (i = len - 1)) st (hds d (List.mem_cons_self _ _)) hb
    rcases hf : f d cp (decide (i = len - 1)) st with _ | st1
    · rw [hf] at hs
      cases hs
    · have hb1 : renderMeasure s st1.1 + 2 ≤ B := by
        have := renderMeasure_mono s (hm d cp _ st st1 hf)
        omega
      exact ih cp len (i + 1) st1 (fun x hx => hds x (List.mem_cons_of_mem _ hx)) hb1

theorem renderRec_isSome (s : Store) :
    ∀ (fuel : Nat) (sym pfx : String) (il : Bool) (cd md : Nat)
      (visited : List String) (out : String),
      (sym ∈ visited ∨ sym ∈ allTargets s) → renderMeasure s visited + 2 ≤ fuel →
      (renderRec s fuel sym pfx il cd md (visited, out)).isSome := by
  intro fuel
  induction fuel with
  | zero =>
    intro sym pfx il cd md visited out _ hb
    omega
  | succ fuel ih =>
    intro sym pfx il cd md visited out hcond hb
    rw [renderRec]
    by_cases h1 : cd > md
    · rw [if_pos h1]
      rfl
    · rw [if_neg h1]
      simp only
      by_cases h2 : sym ∈ visited
      · rw [if_pos h2]
        rfl
      · rw [if_neg h2]
        have hsym : sym ∈ allTargets s := hcond.resolve_left h2
        apply renderChildren_isSome s fuel _
          (fun d p il st hd hbd => ih d p il (cd + 1) md st.1 st.2 (Or.inr hd) hbd)
          (fun d p il st st' hcall => renderRec_mono s fuel d p il (cd + 1) md st st' hcall)
          (symbolDeps s sym) _ (symbolDeps s sym).length 0 _
          (symbolDeps_subset_targets s sym)
        show renderMeasure s (sym :: visited) + 2 ≤ fuel
        have := renderMeasure_strict s hsym h2
        omega

theorem renderRec_isSome_root (s : Store) :
    ∀ (fuel : Nat) (sym pfx : String) (il : Bool) (cd md : Nat)
      (visited : List String) (out : String),
      renderMeasure s visited + 3 ≤ fuel →
      (renderRec s fuel sym pfx il cd md (visited, out)).isSome := by
  intro fuel
  cases fuel with
  | zero =>
    intro sym pfx il cd md visited out hb
    omega
  | succ fuel =>
    intro sym pfx il cd md visited out hb
    rw [renderRec]
    by_cases h1 : cd > md
    · rw [if_pos h1]
      rfl
    · rw [if_neg h1]
      simp only
      by_cases h2 : sym ∈ visited
      · rw [if_pos h2]
        rfl
      · rw [if_neg h2]
        apply renderChildren_isSome s fuel _
          (fun d p il st hd hbd =>
            renderRec_isSome s fuel d p il (cd + 1) md st.1 st.2 (Or.inr hd) hbd)
          (fun d p il st st' hcall => renderRec_mono s fuel d p il (cd + 1) md st st' hcall)
          (symbolDeps s sym) _ (symbolDeps s sym).length 0 _
          (symbolDeps_subset_targets s sym)
        show renderMeasure s (sym :: visited) + 2 ≤ fuel
        have hmono := renderMeasure_mono s (List.subset_cons_self sym visited)
        omega

/-- C7: the dependency-tree traversal for a symbol with max depth 0 yields
the single root line (the symbol with its root language suffix) and nothing
below it; and for every store the traversal terminates at every depth — the
fuel bound derived from the edge count, which caps the visited-set growth,
is never exhausted. -/
theorem renderTree_spec (s : Store) (sym : String) (depth : Nat) :
    renderTreeString s sym 0 = some (sym ++ langSuffix s sym ++ "\n") ∧
    (renderTreeString s sym depth).isSome = true := by
  constructor
  · rw [renderTreeString]
    have hfuel : s.edges.length + 3 = (s.edges.length + 2) + 1 := rfl
    rw [hfuel, renderRec]
    rw [if_neg (by omega : ¬ (0 : Nat) > 0)]
    simp only [gt_iff_lt, Nat.lt_irrefl, if_false, if_pos rfl, List.not_mem_nil,
      ite_false]
    have himm : ∀ (d p : String) (il : Bool) (st : List String × String),
        renderRec s (s.edges.length + 2) d p il (0 + 1) 0 st = some st := by
      intro d p il st
      obtain ⟨v, o⟩ := st
      have h2 : s.edges.length + 2 = (s.edges.length + 1) + 1 := rfl
      rw [h2, renderRec, if_pos (by omega)]
    rw [renderChildren_const _ himm]
    rfl
  · rw [renderTreeString]
    have : (renderRec s (s.edges.length + 3) sym "" true 0 depth ([], "")).isSome := by
      apply renderRec_isSome_root
      have h1 : renderMeasure s [] ≤ (allTargets s).length := by
        rw [renderMeasure]
        simp only [List.toFinset_nil, Finset.sdiff_empty]
        exact (allTargets s).toFinset_card_le
      have h2 : (allTargets s).length = s.edges.length := by
        rw [allTargets, List.length_map]
      omega
    obtain ⟨st, hst⟩ := Option.isSome_iff_exists.mp this
    rw [hst]
    rfl

/-- C6 witness: the two-module adjacency a → b → a yields the reported cycle
[a, b, a], whose membership discharges the theorem's hypothesis. -/
theorem findModuleCycles_spec_witness :
    2 ≤ (["a", "b", "a"] : List String).length ∧
    (["a", "b", "a"] : List String).head? = (["a", "b", "a"] : List String).getLast? ∧
    ∀ i a b, (["a", "b", "a"] : List String)[i]? = some a →
      (["a", "b", "a"] : List String)[i + 1]? = some b →
      b ∈ adjDeps [("a", ["b"]), ("b", ["a"])] a :=
  findModuleCycles_spec [("a", ["b"]), ("b", ["a"])] ["a", "b", "a"] (by decide)

end CodeMate
